import Mathlib

/-!
# Verification of the pyfp limit-search engine and IEEE format model

This file gives a shallow embedding, over `ℚ`, of the repository's code:

* `src/limits.py` — `find_fp`, `find_limit`, `find_limit_reverse`;
* `src/src/fp/limits.py` — `find_fp_fast` (textually the same loop as
  `find_fp`), `find_limit_fast`, `find_limit_reverse_fast`, `bisect_limit`
  and the two-phase `find_limit`/`find_limit_reverse`;
* `src/src/fp/ieee.py` — `IEEEFormat` (bias, `min_exp`, `max_exp`,
  `min_value`, `max_value`, `ulp`), the format registry, `ieee_format`
  and `workfloat`;
* `src/src/fp/util.py` — `next_power`.

mpmath arbitrary-precision floats are modelled as rational numbers: an
mpmath operation at working precision `p` computes the exact rational
result and rounds it to `p` significand bits with round-to-nearest,
ties-to-even (mpmath's default rounding). That rounding is `rnd p q`
below. Transcendental helpers (`mp.log` inside `next_power`) are treated
as exact, as the spec treats arbitrary precision as an exact oracle; for
`x = 0` mpmath's `log` returns `-inf` and `2 ** -inf` is `0`, which the
embedding reproduces with an explicit zero case. The ambient precision
`mp.prec` is threaded through the top-level entry points as explicit
state so that the save/restore discipline of `workprec` is visible.
-/

set_option maxRecDepth 1000000

/-! ## Binary logarithms (structural, fuel-based, kernel-computable) -/

/-- `natLog2F f n` is `⌊log₂ n⌋` for `1 ≤ n ≤ f` (`f` is fuel). -/
def natLog2F : ℕ → ℕ → ℕ
  | 0, _ => 0
  | f+1, n => if n ≤ 1 then 0 else natLog2F f (n / 2) + 1

/-- Floor of the binary logarithm of a natural number. -/
def natLog2 (n : ℕ) : ℕ := natLog2F n n

/-- `natClog2F f n` is the least `k` with `n ≤ 2 ^ k`, for `1 ≤ n ≤ f`. -/
def natClog2F : ℕ → ℕ → ℕ
  | 0, _ => 0
  | f+1, n => if n ≤ 1 then 0 else natClog2F f ((n + 1) / 2) + 1

/-- Ceiling of the binary logarithm of a natural number. -/
def natClog2 (n : ℕ) : ℕ := natClog2F n n

/-! ## Powers of two in `ℚ` -/

/-- `pow2 s = 2 ^ s` in `ℚ` (an mpmath `mp.power(2, s)`, always exact). -/
def pow2 (s : ℤ) : ℚ := (2 : ℚ) ^ s

/-! ## Binary exponent of a rational -/

/-- Binary exponent of `q`: for `q ≠ 0`, the unique `e` with
`2 ^ e ≤ |q| < 2 ^ (e + 1)`. -/
def qexp (q : ℚ) : ℤ :=
  if 1 ≤ |q| then (natLog2 ⌊|q|⌋.toNat : ℤ)
  else -(natClog2 ⌈|q|⁻¹⌉.toNat : ℤ)

/-! ## Round to nearest integer, ties to even -/

/-- Round a rational to the nearest integer, ties to the even integer
(mpmath's default `round_nearest` on the scaled significand). -/
def rne (r : ℚ) : ℤ :=
  if r - ⌊r⌋ < 1/2 then ⌊r⌋
  else if 1/2 < r - ⌊r⌋ then ⌊r⌋ + 1
  else if ⌊r⌋ % 2 = 0 then ⌊r⌋ else ⌊r⌋ + 1

/-! ## Rounding to a working precision

`rnd p q` is the exact rational `q` rounded to `p` significand bits with
round-to-nearest, ties-to-even: the result of any single mpmath operation
performed at working precision `p` whose exact value is `q`. -/

/-- Round `q` to `p` significand bits (round-to-nearest, ties-to-even). -/
def rnd (p : ℕ) (q : ℚ) : ℚ :=
  if q = 0 then 0
  else (rne (q * pow2 ((p : ℤ) - 1 - qexp q)) : ℚ) * pow2 (qexp q - (p : ℤ) + 1)

/-! ## The `find_fp` loop (`src/limits.py`; `find_fp_fast` in
`src/src/fp/limits.py` is the same loop, character for character) -/

/-- The `limit` argument of `find_fp`: a non-callable constant or a
callable. The source wraps a non-callable as `mpf(limit)` and a constant
function returning it; `mpf` of an mpf is the identity in the model. -/
inductive Limit (α β : Type) where
  | val : β → Limit α β
  | fn : (α → β) → Limit α β

def Limit.eval {α β : Type} : Limit α β → α → β
  | .val c, _ => c
  | .fn f, x => f x

/-- One reading of the `while` condition of `find_fp`:
`(xstop is None or x != xstop) and (max_steps is None or nsteps != max_steps)
and not compare(func(x), limit(x))`. Both call sites pass a bound, so
`max_steps` is a `ℕ` in the model. -/
def fpContinue {α β : Type} [DecidableEq α] (func : α → β) (lim : α → β)
    (xstop : Option α) (compare : β → β → Bool) (max_steps : ℕ)
    (nsteps : ℕ) (x : α) : Bool :=
  (match xstop with
    | none => true
    | some s => decide (x ≠ s)) &&
  decide (nsteps ≠ max_steps) && !compare (func x) (lim x)

def findFpGo {α β : Type} [DecidableEq α] (func : α → β) (lim : α → β)
    (xstop : Option α) (xstep : α → α) (compare : β → β → Bool)
    (max_steps : ℕ) : ℕ → ℕ → α → ℕ × α
  | nsteps, 0, x => (nsteps, x)
  | nsteps, fuel+1, x =>
    if fpContinue func lim xstop compare max_steps nsteps x then
      findFpGo func lim xstop xstep compare max_steps (nsteps + 1) fuel (xstep x)
    else (nsteps, x)

/-- `find_fp(func, limit, xstart, xstop, xstep, compare, max_steps)` from
`src/limits.py`. The fuel equals `max_steps - nsteps`, so the fuel-zero
base case coincides with the loop's own `nsteps != max_steps` exit. -/
def find_fp {α β : Type} [DecidableEq α] (func : α → β) (limit : Limit α β)
    (xstart : α) (xstop : Option α) (xstep : α → α) (compare : β → β → Bool)
    (max_steps : ℕ) : ℕ × α :=
  findFpGo func limit.eval xstop xstep compare max_steps 0 max_steps xstart

/-! ## The IEEE format model (`src/src/fp/ieee.py`, `src/src/fp/util.py`) -/

structure IEEEFormat where
  name : String
  bits : ℕ
  exp : ℕ
  prec : ℕ
deriving DecidableEq

/-- `self.bias = 2 ** (self.exp - 1) - 1` (set in `__init__`). -/
def IEEEFormat.bias (fmt : IEEEFormat) : ℤ := 2 ^ (fmt.exp - 1) - 1

def IEEEFormat.min_exp (fmt : IEEEFormat) (denorm : Bool) : ℤ :=
  if denorm then -(fmt.bias - 1) - ((fmt.prec : ℤ) - 1) else -(fmt.bias - 1)

def IEEEFormat.max_exp (fmt : IEEEFormat) : ℤ := fmt.bias

/-- `mp.power(2, self.min_exp(denorm))`: a power of two, exact at any
working precision. -/
def IEEEFormat.min_value (fmt : IEEEFormat) (denorm : Bool) : ℚ :=
  pow2 (fmt.min_exp denorm)

def IEEEFormat.max_value (fmt : IEEEFormat) : ℚ := pow2 fmt.max_exp

/-- `next_power(x)` from `src/src/fp/util.py`, at its default base `n = 2`:
`mp.power(2, mp.floor(mp.log(abs(x), 2)) + 1)`, the smallest power of two
strictly above `|x|`. For `x = 0`, mpmath gives `log(0) = -inf`,
`floor(-inf) + 1 = -inf` and `2 ** -inf = 0`, so `next_power(0) = 0`. -/
def next_power (x : ℚ) : ℚ :=
  if x = 0 then 0 else pow2 (qexp x + 1)

/-- The halving scan of `IEEEFormat.ulp`, run at the format's own
precision: while `(x + ulp) != x and ulp != zero and n < min_exp`, halve
`ulp`; the fuel is `min_exp - n`. -/
def ulpGo (p : ℕ) (x : ℚ) : ℚ → ℕ → ℚ
  | u, 0 => u
  | u, fuel+1 =>
    if rnd p (x + u) ≠ x ∧ u ≠ 0 then ulpGo p x (rnd p (u / 2)) fuel else u

/-- `IEEEFormat.ulp(x)`: the scan starts at `next_power(x)` and the result
is `ulp * two`, a multiplication by two performed back at the ambient
precision — exact, because the scan only ever holds powers of two or
zero. -/
def IEEEFormat.ulp (fmt : IEEEFormat) (x : ℚ) : ℚ :=
  ulpGo fmt.prec x (next_power x) (fmt.min_exp true).natAbs * 2

def ieee_float : IEEEFormat := ⟨"single", 32, 8, 24⟩

def ieee_double : IEEEFormat := ⟨"double", 64, 11, 53⟩

def intel_extended : IEEEFormat := ⟨"extended", 80, 15, 63⟩

def ieee_quad : IEEEFormat := ⟨"quad", 128, 15, 113⟩

/-- `ieee_formats = dict((f.prec, f) for f in ...)`: the registry keyed by
significand precision. -/
def ieee_formats : List (ℕ × IEEEFormat) :=
  [(ieee_float.prec, ieee_float), (ieee_double.prec, ieee_double),
   (intel_extended.prec, intel_extended), (ieee_quad.prec, ieee_quad)]

def formats_lookup (p : ℕ) : Option IEEEFormat :=
  (ieee_formats.find? (fun pr => pr.1 == p)).map Prod.snd

/-- `prec or mp.prec`: Python truthiness sends both `None` and `0` to the
ambient precision, encoded here as `prec = 0`. -/
def effective_prec (ambient prec : ℕ) : ℕ := if prec = 0 then ambient else prec

/-- `ieee_format(prec)`: `none` models the `KeyError` the dict lookup
raises for an unregistered precision. -/
def ieee_format (ambient prec : ℕ) : Option IEEEFormat :=
  formats_lookup (effective_prec ambient prec)

/-- Whether `workfloat(bytes_or_bits)` finds a format: the loop body sets
`ok = True` when the argument equals a format's `bits` or `bits // 8`. -/
def workfloat_found (b : ℤ) : Bool :=
  ieee_formats.any (fun pr => b == (pr.2.bits : ℤ) || b == ((pr.2.bits / 8 : ℕ) : ℤ))

/-- `workfloat` raises `KeyError(bytes_or_bits)` exactly when no format
matched. -/
def workfloat_raises (b : ℤ) : Bool := !workfloat_found b

/-! ## Python-level plumbing: errors, name resolution, precision state

A top-level entry point returns `(result-or-exception, final mp.prec)`.
`workprec` sets `mp.prec` on entry and restores it on exit, also when the
body raises; the final component records the ambient precision after the
call. -/

inductive PyErr where
  | keyError : ℕ → PyErr
  | nameError : String → PyErr
deriving DecidableEq

def PyErr.isNameError : PyErr → Bool
  | .nameError _ => true
  | .keyError _ => false

/-- The global names bound in the module `src/src/fp/limits.py`: its four
imported names and its five function definitions. -/
def fp_limits_globals : List String :=
  ["mp", "mpf", "workprec", "eq", "ne", "zero", "one", "two", "ieee_format",
   "find_fp_fast", "find_limit_fast", "find_limit_reverse_fast",
   "bisect_limit", "find_limit", "find_limit_reverse"]

/-- Python name resolution in that module: a name not bound in the module
globals (nor a builtin — `find_fp` is no builtin) raises `NameError`. -/
def resolveGlobal (n : String) : Except PyErr Unit :=
  if n ∈ fp_limits_globals then .ok () else .error (.nameError n)

/-- `operator.eq` on mpf values. -/
def operator_eq : ℚ → ℚ → Bool := fun a b => decide (a = b)

/-- `operator.ne` on mpf values. -/
def operator_ne : ℚ → ℚ → Bool := fun a b => decide (a ≠ b)

/-- `def xstep(x): return x / two`, executed at working precision `wp`. -/
def half_step (wp : ℕ) (x : ℚ) : ℚ := rnd wp (x / 2)

/-- `def xstep(x): return x * two`, executed at working precision `wp`. -/
def double_step (wp : ℕ) (x : ℚ) : ℚ := rnd wp (x * 2)

/-- The forward tolerance predicate `abs(fx - lx) <= fmt.ulp(fx)`; the
subtraction is an mpmath operation at the working precision, `abs` and
the comparison are exact. -/
def ulp_le_compare (fmt : IEEEFormat) (wp : ℕ) (fx lx : ℚ) : Bool :=
  decide (|rnd wp (fx - lx)| ≤ fmt.ulp fx)

/-- The reverse/bisection tolerance predicate `abs(fx - lx) > fmt.ulp(fx)`. -/
def ulp_gt_compare (fmt : IEEEFormat) (wp : ℕ) (fx lx : ℚ) : Bool :=
  decide (fmt.ulp fx < |rnd wp (fx - lx)|)

/-! ## `find_limit` and `find_limit_reverse` from `src/limits.py` -/

/-- `find_limit` from `src/limits.py`. The `nulp` branch defines a local
`compare`, but the call below passes `eq` — exactly as the source does
(`return find_fp(func, limit, xstart, xstop, xstep, eq, ...)`); the local
is dead code, kept here as `_compare` (see C2). -/
def find_limit (ambient : ℕ) (func : ℚ → ℚ) (limit : Limit ℚ ℚ)
    (xstart xstop : Option ℚ) (nulp prec : ℕ) :
    Except PyErr (ℕ × ℚ) × ℕ :=
  match ieee_format ambient prec with
  | none => (.error (.keyError (effective_prec ambient prec)), ambient)
  | some fmt =>
    let xs := xstart.getD 1
    let xst := xstop.getD (fmt.min_value true)
    let wp := effective_prec ambient prec
    let _compare := if nulp ≠ 0 then ulp_le_compare fmt wp else operator_eq
    (.ok (find_fp func limit xs (some xst) (half_step wp) operator_eq
      (fmt.min_exp true).natAbs), ambient)

/-- The `find_fp` call made by `find_limit_reverse` in `src/limits.py`
(factored out so its step count can be named); the source passes `ne`,
not the locally built `compare` (see C2). -/
def find_limit_reverse_coarse (wp : ℕ) (fmt : IEEEFormat) (func : ℚ → ℚ)
    (limit : Limit ℚ ℚ) (xs xst : ℚ) : ℕ × ℚ :=
  find_fp func limit xs (some xst) (double_step wp) operator_ne
    (fmt.min_exp true).natAbs

/-- `find_limit_reverse` from `src/limits.py`: runs the doubling coarse
search from the format's minimum value and returns
`(abs(fmt.min_exp()) - steps + 1, value / two)`. -/
def find_limit_reverse (ambient : ℕ) (func : ℚ → ℚ) (limit : Limit ℚ ℚ)
    (xstart xstop : Option ℚ) (nulp prec : ℕ) :
    Except PyErr (ℤ × ℚ) × ℕ :=
  match ieee_format ambient prec with
  | none => (.error (.keyError (effective_prec ambient prec)), ambient)
  | some fmt =>
    let xs := xstart.getD (fmt.min_value true)
    let xst := xstop.getD 1
    let wp := effective_prec ambient prec
    let _compare := if nulp ≠ 0 then ulp_gt_compare fmt wp else operator_ne
    let r := find_limit_reverse_coarse wp fmt func limit xs xst
    (.ok ((((fmt.min_exp true).natAbs : ℤ) - (r.1 : ℤ) + 1), rnd wp (r.2 / 2)), ambient)

/-! ## `src/src/fp/limits.py` (namespace `fp`)

Its `find_fp_fast` is the `find_fp` loop above, character for character.
Its four search entry points call a function named `find_fp` that the
module neither defines nor imports (C5); `fp.find_limit` below embeds the
two-phase body with that name resolved to the module's own coarse loop,
and `fp.find_limit_exec` (with the other `_exec` shells) embeds the
faithful behaviour, name resolution included. -/

namespace fp

/-- The midpoint update `x = (upper_limit + lower_limit) / 2`: one rounded
addition, then a division by two (also rounded), at working precision. -/
def midpoint_step (wp : ℕ) (lo hi : ℚ) : ℚ := rnd wp (rnd wp (hi + lo) / 2)

/-- The loop of `bisect_limit`: `x` starts at `lower_limit`, `last_x` at
`None`; while `x != last_x and lower_limit != upper_limit`, the predicate
is evaluated at `x`, the matching bracket edge is moved to `x`, and `x`
becomes the midpoint of the updated bracket. Returns
`(nsteps, lower_limit)`. The fuel is an artifact of the embedding; the
Python loop carries no bound of its own. -/
def bisectGo (wp : ℕ) (func lim : ℚ → ℚ) (cmp : ℚ → ℚ → Bool) :
    ℕ → ℚ → Option ℚ → ℚ → ℚ → ℕ → ℕ × ℚ
  | 0, _, _, lo, _, nsteps => (nsteps, lo)
  | fuel+1, x, lastx, lo, hi, nsteps =>
    if lastx ≠ some x ∧ lo ≠ hi then
      if cmp (func x) (lim x) then
        bisectGo wp func lim cmp fuel (midpoint_step wp x hi) (some x) x hi (nsteps + 1)
      else
        bisectGo wp func lim cmp fuel (midpoint_step wp lo x) (some x) lo x (nsteps + 1)
    else (nsteps, lo)

/-- `bisect_limit` from `src/src/fp/limits.py`. The `limit` argument is
called directly (`limit(x)`), so it is a callable here; the default
`upper_limit = 2 * lower_limit` is computed before the `workprec` block,
at the ambient precision. -/
def bisect_limit (ambient : ℕ) (func lim : ℚ → ℚ) (lower : ℚ)
    (upper : Option ℚ) (nulp prec fuel : ℕ) :
    Except PyErr (ℕ × ℚ) × ℕ :=
  match ieee_format ambient prec with
  | none => (.error (.keyError (effective_prec ambient prec)), ambient)
  | some fmt =>
    let up := match upper with
      | none => rnd ambient (2 * lower)
      | some u => u
    let wp := effective_prec ambient prec
    let cmp := if nulp ≠ 0 then ulp_gt_compare fmt wp else operator_eq
    (.ok (bisectGo wp func lim cmp fuel lower none lower up 0), ambient)

/-- The two-phase `find_limit` of `src/src/fp/limits.py`, with the
unresolved name `find_fp` read as the module's own coarse loop
`find_fp_fast` (= `find_fp`; see C5 for the faithful `NameError`
behaviour). Inside its `workprec` block the ambient precision is the
working precision, which is what the nested `bisect_limit` call observes. -/
def find_limit (ambient : ℕ) (func lim : ℚ → ℚ)
    (xstart xstop : Option ℚ) (nulp prec fuel : ℕ) :
    Except PyErr (ℚ × ℕ × ℕ) × ℕ :=
  match ieee_format ambient prec with
  | none => (.error (.keyError (effective_prec ambient prec)), ambient)
  | some fmt =>
    let wp := effective_prec ambient prec
    let xs := xstart.getD 1
    let xst := xstop.getD (fmt.min_value true)
    let cmp := if nulp ≠ 0 then ulp_le_compare fmt wp else operator_eq
    let r := find_fp func (Limit.fn lim) xs (some xst) (half_step wp) cmp
      (fmt.min_exp true).natAbs
    match (bisect_limit wp func lim r.2 (some (rnd wp (r.2 * 2))) nulp prec fuel).1 with
    | .error e => (.error e, ambient)
    | .ok s => (.ok (s.2, r.1, s.1), ambient)

/-- `bisect_limit` as C3's sentence describes it: the predicate is
evaluated at the midpoint of the current bracket from the very first
iteration (the source evaluates it at the lower edge first). Everything
else is unchanged. -/
def bisect_limit_claim (ambient : ℕ) (func lim : ℚ → ℚ) (lower : ℚ)
    (upper : Option ℚ) (nulp prec fuel : ℕ) :
    Except PyErr (ℕ × ℚ) × ℕ :=
  match ieee_format ambient prec with
  | none => (.error (.keyError (effective_prec ambient prec)), ambient)
  | some fmt =>
    let up := match upper with
      | none => rnd ambient (2 * lower)
      | some u => u
    let wp := effective_prec ambient prec
    let cmp := if nulp ≠ 0 then ulp_gt_compare fmt wp else operator_eq
    (.ok (bisectGo wp func lim cmp fuel (midpoint_step wp lower up) none lower up 0), ambient)

/-- `find_limit_fast`, faithful: after the format lookup succeeds and the
`workprec` block is entered, the body's first action is to resolve the
global name `find_fp`, which fails with `NameError`; `workprec` restores
`mp.prec` on the way out. The `.ok` branch (unreachable, since `find_fp`
is unbound in the module) is the call the source text intends. -/
def find_limit_fast_exec (ambient : ℕ) (func : ℚ → ℚ) (limit : Limit ℚ ℚ)
    (xstart xstop : Option ℚ) (nulp prec : ℕ) :
    Except PyErr (ℕ × ℚ) × ℕ :=
  match ieee_format ambient prec with
  | none => (.error (.keyError (effective_prec ambient prec)), ambient)
  | some fmt =>
    let wp := effective_prec ambient prec
    match resolveGlobal "find_fp" with
    | .error e => (.error e, ambient)
    | .ok _ =>
      (.ok (find_fp func limit (xstart.getD 1) (some (xstop.getD (fmt.min_value true)))
        (half_step wp) (if nulp ≠ 0 then ulp_le_compare fmt wp else operator_eq)
        (fmt.min_exp true).natAbs), ambient)

/-- `find_limit_reverse_fast`, faithful (see `find_limit_fast_exec`). -/
def find_limit_reverse_fast_exec (ambient : ℕ) (func : ℚ → ℚ) (limit : Limit ℚ ℚ)
    (xstart xstop : Option ℚ) (nulp prec : ℕ) :
    Except PyErr (ℤ × ℚ) × ℕ :=
  match ieee_format ambient prec with
  | none => (.error (.keyError (effective_prec ambient prec)), ambient)
  | some fmt =>
    let wp := effective_prec ambient prec
    match resolveGlobal "find_fp" with
    | .error e => (.error e, ambient)
    | .ok _ =>
      let r := find_fp func limit (xstart.getD (fmt.min_value true))
        (some (xstop.getD 1)) (double_step wp)
        (if nulp ≠ 0 then ulp_gt_compare fmt wp else operator_ne)
        (fmt.min_exp true).natAbs
      (.ok ((((fmt.min_exp true).natAbs : ℤ) - (r.1 : ℤ) + 1), rnd wp (r.2 / 2)), ambient)

/-- The two-phase `find_limit`, faithful: the `NameError` fires at the
`find_fp` reference, before `bisect_limit` is ever reached. -/
def find_limit_exec (ambient : ℕ) (func : ℚ → ℚ) (limit : Limit ℚ ℚ)
    (xstart xstop : Option ℚ) (nulp prec fuel : ℕ) :
    Except PyErr (ℚ × ℕ × ℕ) × ℕ :=
  match ieee_format ambient prec with
  | none => (.error (.keyError (effective_prec ambient prec)), ambient)
  | some _ =>
    match resolveGlobal "find_fp" with
    | .error e => (.error e, ambient)
    | .ok _ => find_limit ambient func limit.eval xstart xstop nulp prec fuel

/-- The two-phase `find_limit_reverse`, faithful: the `NameError` fires at
the `find_fp` reference. The `.ok` branch spells out the body with the
name resolved (coarse doubling search, then bisection on `[x/2, x]`). -/
def find_limit_reverse_exec (ambient : ℕ) (func : ℚ → ℚ) (limit : Limit ℚ ℚ)
    (xstart xstop : Option ℚ) (nulp prec fuel : ℕ) :
    Except PyErr (ℚ × ℤ × ℕ) × ℕ :=
  match ieee_format ambient prec with
  | none => (.error (.keyError (effective_prec ambient prec)), ambient)
  | some fmt =>
    let wp := effective_prec ambient prec
    match resolveGlobal "find_fp" with
    | .error e => (.error e, ambient)
    | .ok _ =>
      let lim := limit.eval
      let cmp := if nulp ≠ 0 then ulp_gt_compare fmt wp else operator_ne
      let r := find_fp func limit (xstart.getD (fmt.min_value true))
        (some (xstop.getD 1)) (double_step wp) cmp (fmt.min_exp true).natAbs
      match (bisect_limit wp func lim (rnd wp (r.2 / 2)) (some r.2) nulp prec fuel).1 with
      | .error e => (.error e, ambient)
      | .ok s =>
        (.ok (s.2, (((fmt.min_exp true).natAbs : ℤ) - (r.1 : ℤ) + 1), s.1), ambient)

end fp

/-! ## Characterization of the `find_fp` loop -/

/-- The loop's stop condition at iterate `n`: the sentinel was reached, or
the step bound was reached, or the predicate fired. -/
def fpStop {α β : Type} (func : α → β) (lim : α → β) (xstop : Option α)
    (xstep : α → α) (compare : β → β → Bool) (max_steps : ℕ) (xstart : α)
    (n : ℕ) : Prop :=
  xstop = some (xstep^[n] xstart) ∨ n = max_steps ∨
    compare (func (xstep^[n] xstart)) (lim (xstep^[n] xstart)) = true

/-! ## Theorems -/

theorem natLog2F_char : ∀ f n, 1 ≤ n → n ≤ f →
    2 ^ natLog2F f n ≤ n ∧ n < 2 ^ (natLog2F f n + 1) := by
  intro f
  induction f with
  | zero => intro n h1 h2; omega
  | succ f ih =>
    intro n h1 h2
    by_cases hn : n ≤ 1
    · have : n = 1 := by omega
      subst this
      simp [natLog2F]
    · have h2' : n / 2 ≤ f := by omega
      have h1' : 1 ≤ n / 2 := by omega
      have := ih (n / 2) h1' h2'
      have hrw : natLog2F (f+1) n = natLog2F f (n / 2) + 1 := by
        simp [natLog2F, hn]
      rw [hrw]
      rcases this with ⟨hl, hr⟩
      constructor
      · have : 2 ^ (natLog2F f (n / 2) + 1) = 2 * 2 ^ natLog2F f (n / 2) := by ring
        rw [this]; omega
      · have : 2 ^ (natLog2F f (n / 2) + 1 + 1) = 2 * 2 ^ (natLog2F f (n / 2) + 1) := by ring
        rw [this]; omega

theorem natLog2_char (n : ℕ) (h : 1 ≤ n) :
    2 ^ natLog2 n ≤ n ∧ n < 2 ^ (natLog2 n + 1) :=
  natLog2F_char n n h le_rfl

theorem natClog2F_char : ∀ f n, 1 ≤ n → n ≤ f →
    n ≤ 2 ^ natClog2F f n ∧ (∀ j, j < natClog2F f n → 2 ^ j < n) := by
  intro f
  induction f with
  | zero => intro n h1 h2; omega
  | succ f ih =>
    intro n h1 h2
    by_cases hn : n ≤ 1
    · have : n = 1 := by omega
      subst this
      simp [natClog2F]
    · have h1' : 1 ≤ (n + 1) / 2 := by omega
      have h2' : (n + 1) / 2 ≤ f := by omega
      have := ih ((n + 1) / 2) h1' h2'
      have hrw : natClog2F (f+1) n = natClog2F f ((n + 1) / 2) + 1 := by
        simp [natClog2F, hn]
      rw [hrw]
      rcases this with ⟨hl, hr⟩
      constructor
      · have : 2 ^ (natClog2F f ((n + 1) / 2) + 1) = 2 * 2 ^ natClog2F f ((n + 1) / 2) := by
          ring
        rw [this]; omega
      · intro j hj
        match j with
        | 0 => simpa using (by omega : 1 < n)
        | j'+1 =>
          have hj' : j' < natClog2F f ((n + 1) / 2) := by omega
          have := hr j' hj'
          have : 2 ^ (j' + 1) = 2 * 2 ^ j' := by ring
          omega

theorem natClog2_char (n : ℕ) (h : 1 ≤ n) :
    n ≤ 2 ^ natClog2 n ∧ (∀ j, j < natClog2 n → 2 ^ j < n) :=
  natClog2F_char n n h le_rfl

theorem pow2_pos (s : ℤ) : 0 < pow2 s := zpow_pos (by norm_num) s

theorem pow2_ne_zero (s : ℤ) : pow2 s ≠ 0 := (pow2_pos s).ne'

theorem pow2_add (a b : ℤ) : pow2 (a + b) = pow2 a * pow2 b :=
  zpow_add₀ (by norm_num) a b

theorem pow2_le_pow2 {a b : ℤ} (h : a ≤ b) : pow2 a ≤ pow2 b :=
  zpow_le_zpow_right₀ (by norm_num) h

theorem pow2_lt_pow2 {a b : ℤ} (h : a < b) : pow2 a < pow2 b :=
  zpow_lt_zpow_right₀ (by norm_num) h

theorem pow2_lt_pow2_iff {a b : ℤ} : pow2 a < pow2 b ↔ a < b := by
  constructor
  · intro h
    by_contra hc
    exact absurd (pow2_le_pow2 (by omega : b ≤ a)) (not_le.mpr h)
  · exact pow2_lt_pow2

theorem pow2_natCast (n : ℕ) : pow2 (n : ℤ) = ((2 ^ n : ℕ) : ℚ) := by
  simp [pow2, zpow_natCast]

theorem pow2_mul_half (s : ℤ) : pow2 s / 2 = pow2 (s - 1) := by
  rw [div_eq_iff (by norm_num : (2:ℚ) ≠ 0)]
  rw [show (2:ℚ) = pow2 1 from by simp [pow2], ← pow2_add]
  norm_num

theorem pow2_double (s : ℤ) : 2 * pow2 s = pow2 (s + 1) := by
  rw [show (2:ℚ) = pow2 1 from by simp [pow2], ← pow2_add]
  ring_nf

theorem qexp_char (q : ℚ) (hq : q ≠ 0) :
    pow2 (qexp q) ≤ |q| ∧ |q| < pow2 (qexp q + 1) := by
  have habs : 0 < |q| := abs_pos.mpr hq
  by_cases h1 : 1 ≤ |q|
  · have hfl : (1 : ℤ) ≤ ⌊|q|⌋ := Int.le_floor.mpr (by exact_mod_cast h1)
    set n : ℕ := ⌊|q|⌋.toNat with hndef
    have hnz : (n : ℤ) = ⌊|q|⌋ := Int.toNat_of_nonneg (by omega)
    have hn : 1 ≤ n := by omega
    have hcast1 : (n : ℚ) ≤ |q| := by
      calc (n : ℚ) = ((n : ℤ) : ℚ) := by push_cast; ring
        _ = (⌊|q|⌋ : ℚ) := by rw [hnz]
        _ ≤ |q| := Int.floor_le _
    have hcast2 : |q| < (n : ℚ) + 1 := by
      calc |q| < (⌊|q|⌋ : ℚ) + 1 := Int.lt_floor_add_one _
        _ = (n : ℚ) + 1 := by rw [← hnz]; push_cast; ring
    obtain ⟨hl, hr⟩ := natLog2_char n hn
    have hqe : qexp q = (natLog2 n : ℤ) := by simp [qexp, h1, hndef]
    rw [hqe]
    constructor
    · rw [pow2_natCast]
      calc ((2 ^ natLog2 n : ℕ) : ℚ) ≤ (n : ℚ) := by exact_mod_cast hl
        _ ≤ |q| := hcast1
    · have hstep : ((natLog2 n : ℤ) + 1) = ((natLog2 n + 1 : ℕ) : ℤ) := by push_cast; ring
      rw [hstep, pow2_natCast]
      calc |q| < (n : ℚ) + 1 := hcast2
        _ ≤ ((2 ^ (natLog2 n + 1) : ℕ) : ℚ) := by exact_mod_cast (by omega : n + 1 ≤ 2 ^ (natLog2 n + 1))
  · push_neg at h1
    have hinv : 1 < |q|⁻¹ := (one_lt_inv₀ habs).mpr h1
    have hceil : (2 : ℤ) ≤ ⌈|q|⁻¹⌉ := by
      have : (1 : ℤ) < ⌈|q|⁻¹⌉ := Int.lt_ceil.mpr (by exact_mod_cast hinv)
      omega
    set m : ℕ := ⌈|q|⁻¹⌉.toNat with hmdef
    have hmz : (m : ℤ) = ⌈|q|⁻¹⌉ := Int.toNat_of_nonneg (by omega)
    have hm : 1 ≤ m := by omega
    obtain ⟨hl, hr⟩ := natClog2_char m hm
    set k := natClog2 m with hk
    have hk1 : 1 ≤ k := by
      by_contra hc
      have hk0 : k = 0 := by omega
      rw [hk0] at hl
      omega
    have hqe : qexp q = -(k : ℤ) := by
      simp [qexp, not_le.mpr h1, hmdef, hk]
    rw [hqe]
    have hup : |q|⁻¹ ≤ ((2 ^ k : ℕ) : ℚ) := by
      calc |q|⁻¹ ≤ (⌈|q|⁻¹⌉ : ℚ) := Int.le_ceil _
        _ = (m : ℚ) := by rw [← hmz]; push_cast; ring
        _ ≤ ((2 ^ k : ℕ) : ℚ) := by exact_mod_cast hl
    have hlow : ((2 ^ (k - 1) : ℕ) : ℚ) < |q|⁻¹ := by
      have hj : 2 ^ (k - 1) < m := hr (k - 1) (by omega)
      have hle : ((2 ^ (k - 1) : ℕ) : ℚ) ≤ (m : ℚ) - 1 := by
        have h2 : (2 ^ (k - 1) : ℕ) + 1 ≤ m := by omega
        have h3 := (Nat.cast_le (α := ℚ)).mpr h2
        push_cast at h3 ⊢
        linarith
      have hc1 : (m : ℚ) - 1 < |q|⁻¹ := by
        have := Int.ceil_lt_add_one (|q|⁻¹)
        rw [← hmz] at this
        push_cast at this
        linarith
      linarith
    have hq2k : (0:ℚ) < ((2 ^ k : ℕ) : ℚ) := by positivity
    have hq2k1 : (0:ℚ) < ((2 ^ (k-1) : ℕ) : ℚ) := by positivity
    constructor
    · have h2k : pow2 (-(k : ℤ)) = ((2 ^ k : ℕ) : ℚ)⁻¹ := by
        rw [← pow2_natCast, pow2, pow2, zpow_neg]
      rw [h2k]
      exact (inv_le_comm₀ habs hq2k).mp hup
    · have h2k : pow2 (-(k : ℤ) + 1) = ((2 ^ (k - 1) : ℕ) : ℚ)⁻¹ := by
        rw [← pow2_natCast, pow2, pow2, ← zpow_neg]
        congr 1
        omega
      rw [h2k]
      exact (lt_inv_comm₀ habs hq2k1).mpr hlow

theorem qexp_unique (q : ℚ) (hq : q ≠ 0) (e : ℤ)
    (h1 : pow2 e ≤ |q|) (h2 : |q| < pow2 (e + 1)) : qexp q = e := by
  obtain ⟨hl, hr⟩ := qexp_char q hq
  rcases lt_trichotomy (qexp q) e with h | h | h
  · exact absurd (lt_of_le_of_lt h1 hr) (not_lt.mpr (pow2_le_pow2 (by omega)))
  · exact h
  · exact absurd (lt_of_le_of_lt hl h2) (not_lt.mpr (pow2_le_pow2 (by omega)))

theorem qexp_neg (q : ℚ) : qexp (-q) = qexp q := by
  simp [qexp, abs_neg]

theorem qexp_pow2 (s : ℤ) : qexp (pow2 s) = s := by
  apply qexp_unique _ (pow2_ne_zero s) s
  · rw [abs_of_pos (pow2_pos s)]
  · rw [abs_of_pos (pow2_pos s)]
    exact pow2_lt_pow2 (by omega)

theorem rne_of_lt {r : ℚ} (h : r - ⌊r⌋ < 1/2) : rne r = ⌊r⌋ := if_pos h

theorem rne_of_gt {r : ℚ} (h : 1/2 < r - ⌊r⌋) : rne r = ⌊r⌋ + 1 := by
  unfold rne
  rw [if_neg (by linarith), if_pos h]

theorem rne_of_tie {r : ℚ} (h : r - ⌊r⌋ = 1/2) :
    rne r = if ⌊r⌋ % 2 = 0 then ⌊r⌋ else ⌊r⌋ + 1 := by
  unfold rne
  rw [if_neg (by rw [h]; exact lt_irrefl _), if_neg (by rw [h]; exact lt_irrefl _)]

theorem rne_intCast (m : ℤ) : rne (m : ℚ) = m := by
  have : ((m : ℚ)) - ⌊(m : ℚ)⌋ < 1/2 := by
    rw [Int.floor_intCast]
    norm_num
  rw [rne_of_lt this, Int.floor_intCast]

theorem rne_int_add_small (m : ℤ) (t : ℚ) (h0 : 0 ≤ t) (h : t < 1/2) :
    rne ((m : ℚ) + t) = m := by
  have hfl : ⌊(m : ℚ) + t⌋ = m := by
    rw [Int.floor_int_add]
    have : ⌊t⌋ = 0 := Int.floor_eq_zero_iff.mpr ⟨h0, by linarith⟩
    omega
  have hlt : (m : ℚ) + t - ⌊(m : ℚ) + t⌋ < 1/2 := by
    rw [hfl]
    linarith
  rw [rne_of_lt hlt, hfl]

theorem rne_int_sub_small (m : ℤ) (t : ℚ) (h0 : 0 < t) (h : t < 1/2) :
    rne ((m : ℚ) - t) = m := by
  have hfl : ⌊(m : ℚ) - t⌋ = m - 1 := by
    have heq : (m : ℚ) - t = ((m - 1 : ℤ) : ℚ) + (1 - t) := by push_cast; ring
    rw [heq, Int.floor_int_add]
    have : ⌊1 - t⌋ = 0 := Int.floor_eq_zero_iff.mpr ⟨by linarith, by linarith⟩
    omega
  have hgt : 1/2 < (m : ℚ) - t - ⌊(m : ℚ) - t⌋ := by
    rw [hfl]
    push_cast
    linarith
  rw [rne_of_gt hgt, hfl]
  omega

theorem rne_tie (m : ℤ) :
    rne ((m : ℚ) + 1/2) = if m % 2 = 0 then m else m + 1 := by
  have hfl : ⌊(m : ℚ) + 1/2⌋ = m := by
    rw [Int.floor_int_add]
    have : ⌊(1/2 : ℚ)⌋ = 0 := Int.floor_eq_zero_iff.mpr ⟨by norm_num, by norm_num⟩
    omega
  have htie : (m : ℚ) + 1/2 - ⌊(m : ℚ) + 1/2⌋ = 1/2 := by
    rw [hfl]
    ring
  rw [rne_of_tie htie, hfl]

theorem rne_floor_le (r : ℚ) : ⌊r⌋ ≤ rne r := by
  unfold rne
  split_ifs <;> omega

theorem rne_le_floor_add_one (r : ℚ) : rne r ≤ ⌊r⌋ + 1 := by
  unfold rne
  split_ifs <;> omega

theorem rne_neg (r : ℚ) : rne (-r) = -rne r := by
  rcases eq_or_lt_of_le (Int.floor_le r) with hfl | hfl
  · -- r is an integer
    have hint : r = (⌊r⌋ : ℚ) := hfl.symm
    rw [hint, ← Int.cast_neg, rne_intCast, rne_intCast]
  · have hf0 : (0:ℚ) < r - ⌊r⌋ := by linarith
    have hf1 : r - ⌊r⌋ < 1 := by
      have := Int.lt_floor_add_one r
      linarith
    have hnegfl : ⌊-r⌋ = -⌊r⌋ - 1 := by
      have heq : -r = ((-⌊r⌋ - 1 : ℤ) : ℚ) + (1 - (r - ⌊r⌋)) := by push_cast; ring
      rw [heq, Int.floor_int_add]
      have : ⌊1 - (r - ⌊r⌋)⌋ = 0 :=
        Int.floor_eq_zero_iff.mpr ⟨by linarith, by linarith⟩
      omega
    have hnegf : -r - ⌊-r⌋ = 1 - (r - ⌊r⌋) := by
      rw [hnegfl]
      push_cast
      ring
    rcases lt_trichotomy (r - ⌊r⌋) (1/2) with hc | hc | hc
    · have h1 : rne r = ⌊r⌋ := rne_of_lt hc
      have h2 : rne (-r) = ⌊-r⌋ + 1 := rne_of_gt (by rw [hnegf]; linarith)
      rw [h1, h2, hnegfl]
      ring
    · have h1 : rne r = if ⌊r⌋ % 2 = 0 then ⌊r⌋ else ⌊r⌋ + 1 := rne_of_tie hc
      have h2 : rne (-r) = if ⌊-r⌋ % 2 = 0 then ⌊-r⌋ else ⌊-r⌋ + 1 :=
        rne_of_tie (by rw [hnegf, hc]; ring)
      rw [h1, h2, hnegfl]
      split_ifs <;> omega
    · have h1 : rne r = ⌊r⌋ + 1 := rne_of_gt hc
      have h2 : rne (-r) = ⌊-r⌋ := rne_of_lt (by rw [hnegf]; linarith)
      rw [h1, h2, hnegfl]
      ring

theorem rnd_zero (p : ℕ) : rnd p 0 = 0 := by simp [rnd]

theorem rnd_eq_of_exp (p : ℕ) (q : ℚ) (hq : q ≠ 0) (e : ℤ)
    (h1 : pow2 e ≤ |q|) (h2 : |q| < pow2 (e + 1)) :
    rnd p q = (rne (q * pow2 ((p : ℤ) - 1 - e)) : ℚ) * pow2 (e - (p : ℤ) + 1) := by
  unfold rnd
  rw [if_neg hq, qexp_unique q hq e h1 h2]

theorem rnd_neg (p : ℕ) (q : ℚ) : rnd p (-q) = -rnd p q := by
  by_cases hq : q = 0
  · simp [hq, rnd_zero]
  · unfold rnd
    rw [if_neg hq, if_neg (neg_ne_zero.mpr hq), qexp_neg]
    have : -q * pow2 ((p : ℤ) - 1 - qexp q) = -(q * pow2 ((p : ℤ) - 1 - qexp q)) := by ring
    rw [this, rne_neg]
    push_cast
    ring

theorem pow2_toNat (n : ℤ) (h : 0 ≤ n) : pow2 n = ((2 ^ n.toNat : ℤ) : ℚ) := by
  have h1 : (((2 : ℤ) ^ n.toNat : ℤ) : ℚ) = ((2 ^ n.toNat : ℕ) : ℚ) := by
    push_cast
    ring
  rw [h1, ← pow2_natCast, Int.toNat_of_nonneg h]

theorem rnd_pow2 (p : ℕ) (hp : 1 ≤ p) (k : ℤ) : rnd p (pow2 k) = pow2 k := by
  have habs : |pow2 k| = pow2 k := abs_of_pos (pow2_pos k)
  rw [rnd_eq_of_exp p (pow2 k) (pow2_ne_zero k) k (by rw [habs]) (by rw [habs]; exact pow2_lt_pow2 (by omega))]
  have hop : pow2 k * pow2 ((p : ℤ) - 1 - k) = pow2 ((p : ℤ) - 1) := by
    rw [← pow2_add]
    ring_nf
  rw [hop, pow2_toNat ((p : ℤ) - 1) (by omega), rne_intCast, ← pow2_toNat ((p : ℤ) - 1) (by omega), ← pow2_add]
  ring_nf

theorem rnd_lower_bound (p : ℕ) (hp : 1 ≤ p) (q : ℚ) (hq : 0 < q) :
    pow2 (qexp q) ≤ rnd p q := by
  obtain ⟨h1, h2⟩ := qexp_char q hq.ne'
  rw [abs_of_pos hq] at h1 h2
  set e := qexp q with he
  set r := q * pow2 ((p : ℤ) - 1 - e) with hr
  have hrlow : pow2 ((p : ℤ) - 1) ≤ r := by
    have := mul_le_mul_of_nonneg_right h1 (pow2_pos ((p : ℤ) - 1 - e)).le
    rw [← pow2_add] at this
    calc pow2 ((p : ℤ) - 1) = pow2 (e + ((p : ℤ) - 1 - e)) := by ring_nf
      _ ≤ r := this
  have hfloor : ((2 ^ ((p : ℤ) - 1).toNat : ℤ)) ≤ ⌊r⌋ := by
    apply Int.le_floor.mpr
    rw [← pow2_toNat _ (by omega)]
    exact hrlow
  have hrne : ((2 ^ ((p : ℤ) - 1).toNat : ℤ)) ≤ rne r := le_trans hfloor (rne_floor_le r)
  have hcast : pow2 ((p : ℤ) - 1) ≤ ((rne r : ℤ) : ℚ) := by
    rw [pow2_toNat _ (by omega)]
    exact_mod_cast hrne
  unfold rnd
  rw [if_neg hq.ne', ← he, ← hr]
  calc pow2 e = pow2 ((p : ℤ) - 1) * pow2 (e - (p : ℤ) + 1) := by rw [← pow2_add]; ring_nf
    _ ≤ ((rne r : ℤ) : ℚ) * pow2 (e - (p : ℤ) + 1) :=
        mul_le_mul_of_nonneg_right hcast (pow2_pos _).le

theorem rnd_pos (p : ℕ) (hp : 1 ≤ p) (q : ℚ) (hq : 0 < q) : 0 < rnd p q :=
  lt_of_lt_of_le (pow2_pos (qexp q)) (rnd_lower_bound p hp q hq)

theorem rnd_fixed (p : ℕ) (hp : 1 ≤ p) (M : ℤ) (s : ℤ)
    (h1 : (2 : ℤ) ^ (p - 1) ≤ |M|) (h2 : |M| < 2 ^ p) :
    rnd p ((M : ℚ) * pow2 s) = (M : ℚ) * pow2 s := by
  have hM0 : M ≠ 0 := by
    intro h
    rw [h] at h1
    simp at h1
    have := pow_pos (show (0:ℤ) < 2 by norm_num) (p - 1)
    omega
  have hq0 : (M : ℚ) * pow2 s ≠ 0 := by
    apply mul_ne_zero _ (pow2_ne_zero s)
    exact_mod_cast hM0
  have habs : |(M : ℚ) * pow2 s| = ((|M| : ℤ) : ℚ) * pow2 s := by
    rw [abs_mul, abs_of_pos (pow2_pos s)]
    norm_cast
  have hcast1 : pow2 ((p : ℤ) - 1) ≤ ((|M| : ℤ) : ℚ) := by
    have : ((p : ℤ) - 1).toNat = p - 1 := by omega
    rw [pow2_toNat _ (by omega), this]
    exact_mod_cast h1
  have hcast2 : ((|M| : ℤ) : ℚ) < pow2 (p : ℤ) := by
    rw [pow2_toNat (p : ℤ) (by omega)]
    have : ((p : ℤ)).toNat = p := by omega
    rw [this]
    exact_mod_cast h2
  have he1 : pow2 ((p : ℤ) - 1 + s) ≤ |(M : ℚ) * pow2 s| := by
    rw [habs, pow2_add]
    exact mul_le_mul_of_nonneg_right hcast1 (pow2_pos s).le
  have he2 : |(M : ℚ) * pow2 s| < pow2 ((p : ℤ) - 1 + s + 1) := by
    rw [habs]
    calc ((|M| : ℤ) : ℚ) * pow2 s < pow2 (p : ℤ) * pow2 s :=
          mul_lt_mul_of_pos_right hcast2 (pow2_pos s)
      _ = pow2 ((p : ℤ) - 1 + s + 1) := by rw [← pow2_add]; ring_nf
  rw [rnd_eq_of_exp p _ hq0 ((p : ℤ) - 1 + s) he1 he2]
  have hop : (M : ℚ) * pow2 s * pow2 ((p : ℤ) - 1 - ((p : ℤ) - 1 + s)) = (M : ℚ) := by
    rw [mul_assoc, ← pow2_add]
    ring_nf
    simp [pow2]
  rw [hop, rne_intCast]
  congr 1
  rw [show (p : ℤ) - 1 + s - (p : ℤ) + 1 = s from by ring]

theorem rnd_repr (p : ℕ) (hp : 1 ≤ p) (q : ℚ) (hq : q ≠ 0) (hfix : rnd p q = q) :
    ∃ M : ℤ, q = (M : ℚ) * pow2 (qexp q - (p : ℤ) + 1) ∧
      (2 : ℤ) ^ (p - 1) ≤ |M| ∧ |M| < 2 ^ p := by
  obtain ⟨h1, h2⟩ := qexp_char q hq
  set e := qexp q with he
  refine ⟨rne (q * pow2 ((p : ℤ) - 1 - e)), ?_, ?_, ?_⟩
  · conv_lhs => rw [← hfix]
    unfold rnd
    rw [if_neg hq, ← he]
  all_goals {
    have hqeq : q = ((rne (q * pow2 ((p : ℤ) - 1 - e)) : ℤ) : ℚ) * pow2 (e - (p : ℤ) + 1) := by
      conv_lhs => rw [← hfix]
      unfold rnd
      rw [if_neg hq, ← he]
    set M : ℤ := rne (q * pow2 ((p : ℤ) - 1 - e)) with hM
    have habsq : |q| = ((|M| : ℤ) : ℚ) * pow2 (e - (p : ℤ) + 1) := by
      rw [hqeq, abs_mul, abs_of_pos (pow2_pos _)]
      norm_cast
    have hlow : pow2 ((p : ℤ) - 1) ≤ ((|M| : ℤ) : ℚ) := by
      have h3 : pow2 e ≤ ((|M| : ℤ) : ℚ) * pow2 (e - (p : ℤ) + 1) := by rw [← habsq]; exact h1
      have h4 := mul_le_mul_of_nonneg_right h3 (pow2_pos ((p : ℤ) - 1 - e)).le
      rw [mul_assoc, ← pow2_add, ← pow2_add] at h4
      calc pow2 ((p : ℤ) - 1) = pow2 (e + ((p : ℤ) - 1 - e)) := by ring_nf
        _ ≤ ((|M| : ℤ) : ℚ) * pow2 (e - (p : ℤ) + 1 + ((p : ℤ) - 1 - e)) := h4
        _ = ((|M| : ℤ) : ℚ) := by
            rw [show e - (p : ℤ) + 1 + ((p : ℤ) - 1 - e) = 0 from by ring]
            simp [pow2]
    have hhigh : ((|M| : ℤ) : ℚ) < pow2 (p : ℤ) := by
      have h3 : ((|M| : ℤ) : ℚ) * pow2 (e - (p : ℤ) + 1) < pow2 (e + 1) := by rw [← habsq]; exact h2
      have h4 := mul_lt_mul_of_pos_right h3 (pow2_pos ((p : ℤ) - 1 - e))
      rw [mul_assoc, ← pow2_add, ← pow2_add] at h4
      calc ((|M| : ℤ) : ℚ) = ((|M| : ℤ) : ℚ) * pow2 (e - (p : ℤ) + 1 + ((p : ℤ) - 1 - e)) := by
            rw [show e - (p : ℤ) + 1 + ((p : ℤ) - 1 - e) = 0 from by ring]
            simp [pow2]
        _ < pow2 (e + 1 + ((p : ℤ) - 1 - e)) := h4
        _ = pow2 (p : ℤ) := by ring_nf
    first
    | · rw [pow2_toNat ((p : ℤ) - 1) (by omega)] at hlow
        have hto : ((p : ℤ) - 1).toNat = p - 1 := by omega
        rw [hto] at hlow
        exact_mod_cast hlow
    | · rw [pow2_toNat (p : ℤ) (by omega)] at hhigh
        have hto : ((p : ℤ)).toNat = p := by omega
        rw [hto] at hhigh
        exact_mod_cast hhigh
  }

theorem qexp_ge_of_le (q : ℚ) (hq : 0 < q) (k : ℤ) (h : pow2 k ≤ q) : k ≤ qexp q := by
  obtain ⟨h1, h2⟩ := qexp_char q hq.ne'
  rw [abs_of_pos hq] at h1 h2
  have : pow2 k < pow2 (qexp q + 1) := lt_of_le_of_lt h h2
  have := pow2_lt_pow2_iff.mp this
  omega

theorem rnd_idem_pos (p : ℕ) (hp : 1 ≤ p) (q : ℚ) (hq : 0 < q) :
    rnd p (rnd p q) = rnd p q := by
  obtain ⟨h1, h2⟩ := qexp_char q hq.ne'
  rw [abs_of_pos hq] at h1 h2
  set e := qexp q with he
  set r := q * pow2 ((p : ℤ) - 1 - e) with hr
  have hrpos : 0 < r := mul_pos hq (pow2_pos _)
  have hrlow : pow2 ((p : ℤ) - 1) ≤ r := by
    have := mul_le_mul_of_nonneg_right h1 (pow2_pos ((p : ℤ) - 1 - e)).le
    rw [← pow2_add] at this
    calc pow2 ((p : ℤ) - 1) = pow2 (e + ((p : ℤ) - 1 - e)) := by ring_nf
      _ ≤ r := this
  have hrhigh : r < pow2 (p : ℤ) := by
    have := mul_lt_mul_of_pos_right h2 (pow2_pos ((p : ℤ) - 1 - e))
    rw [← pow2_add] at this
    calc r < pow2 (e + 1 + ((p : ℤ) - 1 - e)) := this
      _ = pow2 (p : ℤ) := by ring_nf
  set N : ℤ := rne r with hN
  have hNlow : (2 : ℤ) ^ (p - 1) ≤ N := by
    have hfl : ((2 ^ (p - 1) : ℤ)) ≤ ⌊r⌋ := by
      apply Int.le_floor.mpr
      have hto : ((p : ℤ) - 1).toNat = p - 1 := by omega
      rw [show (((2 : ℤ) ^ (p - 1) : ℤ) : ℚ) = pow2 ((p : ℤ) - 1) from by
        rw [pow2_toNat _ (by omega), hto]]
      exact hrlow
    exact le_trans hfl (rne_floor_le r)
  have hNhigh : N ≤ 2 ^ p := by
    have hfl : ⌊r⌋ < (2 ^ p : ℤ) := by
      apply Int.floor_lt.mpr
      have hto : ((p : ℤ)).toNat = p := by omega
      rw [show (((2 : ℤ) ^ p : ℤ) : ℚ) = pow2 (p : ℤ) from by
        rw [pow2_toNat _ (by omega), hto]]
      exact hrhigh
    have := rne_le_floor_add_one r
    omega
  have hrnd : rnd p q = (N : ℚ) * pow2 (e - (p : ℤ) + 1) := by
    unfold rnd
    rw [if_neg hq.ne', ← he, ← hr, ← hN]
  rcases eq_or_lt_of_le hNhigh with hNeq | hNlt
  · rw [hrnd, hNeq]
    have : (((2 : ℤ) ^ p : ℤ) : ℚ) * pow2 (e - (p : ℤ) + 1) = pow2 (e + 1) := by
      have hto : ((p : ℤ)).toNat = p := by omega
      rw [show (((2 : ℤ) ^ p : ℤ) : ℚ) = pow2 (p : ℤ) from by
        rw [pow2_toNat _ (by omega), hto], ← pow2_add]
      ring_nf
    rw [this]
    exact rnd_pow2 p hp (e + 1)
  · rw [hrnd]
    have hNpos : (0:ℤ) < N := by
      have := pow_pos (show (0:ℤ) < 2 by norm_num) (p - 1)
      omega
    apply rnd_fixed p hp N (e - (p : ℤ) + 1)
    · rw [abs_of_pos hNpos]
      exact hNlow
    · rw [abs_of_pos hNpos]
      exact hNlt

theorem rnd_idem (p : ℕ) (hp : 1 ≤ p) (q : ℚ) : rnd p (rnd p q) = rnd p q := by
  rcases lt_trichotomy q 0 with hq | hq | hq
  · have : rnd p q = -rnd p (-q) := by
      rw [← rnd_neg, neg_neg]
    rw [this, rnd_neg, rnd_idem_pos p hp (-q) (by linarith)]
  · simp [hq, rnd_zero]
  · exact rnd_idem_pos p hp q hq

theorem rnd_ne_of_not_fix (p : ℕ) (hp : 1 ≤ p) (x : ℚ) (hx : rnd p x ≠ x) (q : ℚ) :
    rnd p q ≠ x := by
  intro hc
  have := rnd_idem p hp q
  rw [hc] at this
  exact hx this

theorem cast_two_pow_eq (p : ℕ) (hp : 1 ≤ p) :
    (((2 : ℤ) ^ (p - 1) : ℤ) : ℚ) = pow2 ((p : ℤ) - 1) := by
  rw [pow2_toNat ((p : ℤ) - 1) (by omega),
    show ((p : ℤ) - 1).toNat = p - 1 from by omega]

theorem cast_two_pow_eq' (p : ℕ) : (((2 : ℤ) ^ p : ℤ) : ℚ) = pow2 (p : ℤ) := by
  rw [pow2_toNat (p : ℤ) (by omega), show ((p : ℤ)).toNat = p from by omega]

theorem rnd_int_add_quarter (p : ℕ) (hp : 1 ≤ p) (M s : ℤ)
    (hl : (2 : ℤ) ^ (p - 1) ≤ M) (hh : M < 2 ^ p) :
    rnd p (((M : ℚ) + 1/4) * pow2 s) = (M : ℚ) * pow2 s := by
  have hMq1 : pow2 ((p : ℤ) - 1) ≤ (M : ℚ) := by
    rw [← cast_two_pow_eq p hp]
    exact_mod_cast hl
  have hMq2 : (M : ℚ) + 1/4 < pow2 (p : ℤ) := by
    have h1 : (M : ℚ) ≤ (((2 : ℤ) ^ p : ℤ) : ℚ) - 1 := by
      have h2 : M ≤ 2 ^ p - 1 := by omega
      exact_mod_cast h2
    rw [← cast_two_pow_eq' p]
    linarith
  have hvpos : 0 < ((M : ℚ) + 1/4) * pow2 s := by
    apply mul_pos _ (pow2_pos s)
    have := pow2_pos ((p : ℤ) - 1)
    linarith
  have he1 : pow2 ((p : ℤ) - 1 + s) ≤ |((M : ℚ) + 1/4) * pow2 s| := by
    rw [abs_of_pos hvpos, pow2_add]
    apply mul_le_mul_of_nonneg_right _ (pow2_pos s).le
    linarith
  have he2 : |((M : ℚ) + 1/4) * pow2 s| < pow2 ((p : ℤ) - 1 + s + 1) := by
    rw [abs_of_pos hvpos, show (p : ℤ) - 1 + s + 1 = (p : ℤ) + s from by ring, pow2_add]
    exact mul_lt_mul_of_pos_right hMq2 (pow2_pos s)
  rw [rnd_eq_of_exp p _ hvpos.ne' ((p : ℤ) - 1 + s) he1 he2]
  have hop : ((M : ℚ) + 1/4) * pow2 s * pow2 ((p : ℤ) - 1 - ((p : ℤ) - 1 + s)) =
      (M : ℚ) + 1/4 := by
    rw [show (p : ℤ) - 1 - ((p : ℤ) - 1 + s) = -s from by ring, mul_assoc, ← pow2_add,
      show s + -s = 0 from by ring]
    simp [pow2]
  rw [hop, rne_int_add_small M (1/4) (by norm_num) (by norm_num),
    show (p : ℤ) - 1 + s - (p : ℤ) + 1 = s from by ring]

theorem rnd_int_sub_quarter (p : ℕ) (hp : 1 ≤ p) (A s : ℤ)
    (hl : (2 : ℤ) ^ (p - 1) + 1 ≤ A) (hh : A < 2 ^ p) :
    rnd p (((A : ℚ) - 1/4) * pow2 s) = (A : ℚ) * pow2 s := by
  have hAq1 : pow2 ((p : ℤ) - 1) + 1 ≤ (A : ℚ) := by
    rw [← cast_two_pow_eq p hp]
    exact_mod_cast hl
  have hAq2 : (A : ℚ) < pow2 (p : ℤ) := by
    rw [← cast_two_pow_eq' p]
    exact_mod_cast hh
  have hvpos : 0 < ((A : ℚ) - 1/4) * pow2 s := by
    apply mul_pos _ (pow2_pos s)
    have := pow2_pos ((p : ℤ) - 1)
    linarith
  have he1 : pow2 ((p : ℤ) - 1 + s) ≤ |((A : ℚ) - 1/4) * pow2 s| := by
    rw [abs_of_pos hvpos, pow2_add]
    apply mul_le_mul_of_nonneg_right _ (pow2_pos s).le
    linarith
  have he2 : |((A : ℚ) - 1/4) * pow2 s| < pow2 ((p : ℤ) - 1 + s + 1) := by
    rw [abs_of_pos hvpos, show (p : ℤ) - 1 + s + 1 = (p : ℤ) + s from by ring, pow2_add]
    apply mul_lt_mul_of_pos_right _ (pow2_pos s)
    linarith
  rw [rnd_eq_of_exp p _ hvpos.ne' ((p : ℤ) - 1 + s) he1 he2]
  have hop : ((A : ℚ) - 1/4) * pow2 s * pow2 ((p : ℤ) - 1 - ((p : ℤ) - 1 + s)) =
      (A : ℚ) - 1/4 := by
    rw [show (p : ℤ) - 1 - ((p : ℤ) - 1 + s) = -s from by ring, mul_assoc, ← pow2_add,
      show s + -s = 0 from by ring]
    simp [pow2]
  rw [hop, rne_int_sub_small A (1/4) (by norm_num) (by norm_num),
    show (p : ℤ) - 1 + s - (p : ℤ) + 1 = s from by ring]

theorem rnd_bottom_sub_quarter (p : ℕ) (hp : 1 ≤ p) (s : ℤ) :
    rnd p ((pow2 ((p : ℤ) - 1) - 1/4) * pow2 s) = pow2 ((p : ℤ) - 1) * pow2 s := by
  have hq : (1:ℚ)/2 ≤ pow2 ((p : ℤ) - 2) := by
    calc (1:ℚ)/2 = pow2 (-1) := by rw [pow2]; norm_num
      _ ≤ pow2 ((p : ℤ) - 2) := pow2_le_pow2 (by omega)
  have hdouble : pow2 ((p : ℤ) - 1) = 2 * pow2 ((p : ℤ) - 2) := by
    rw [pow2_double, show (p : ℤ) - 2 + 1 = (p : ℤ) - 1 from by ring]
  have hvpos : 0 < (pow2 ((p : ℤ) - 1) - 1/4) * pow2 s := by
    apply mul_pos _ (pow2_pos s)
    rw [hdouble]
    linarith
  have he1 : pow2 ((p : ℤ) - 2 + s) ≤ |(pow2 ((p : ℤ) - 1) - 1/4) * pow2 s| := by
    rw [abs_of_pos hvpos, pow2_add]
    apply mul_le_mul_of_nonneg_right _ (pow2_pos s).le
    rw [hdouble]
    linarith
  have he2 : |(pow2 ((p : ℤ) - 1) - 1/4) * pow2 s| < pow2 ((p : ℤ) - 2 + s + 1) := by
    rw [abs_of_pos hvpos, show (p : ℤ) - 2 + s + 1 = ((p : ℤ) - 1) + s from by ring, pow2_add]
    apply mul_lt_mul_of_pos_right _ (pow2_pos s)
    have := pow2_pos ((p : ℤ) - 1)
    linarith
  rw [rnd_eq_of_exp p _ hvpos.ne' ((p : ℤ) - 2 + s) he1 he2]
  have hPP : pow2 (p : ℤ) = 2 * pow2 ((p : ℤ) - 1) := by
    rw [pow2_double, show (p : ℤ) - 1 + 1 = (p : ℤ) from by ring]
  have hop : (pow2 ((p : ℤ) - 1) - 1/4) * pow2 s * pow2 ((p : ℤ) - 1 - ((p : ℤ) - 2 + s)) =
      (((2 : ℤ) ^ p - 1 : ℤ) : ℚ) + 1/2 := by
    rw [show (p : ℤ) - 1 - ((p : ℤ) - 2 + s) = 1 - s from by ring, mul_assoc, ← pow2_add,
      show s + (1 - s) = 1 from by ring, show pow2 1 = 2 from by rw [pow2]; norm_num]
    have hcast : (((2 : ℤ) ^ p - 1 : ℤ) : ℚ) = pow2 (p : ℤ) - 1 := by
      rw [show (((2 : ℤ) ^ p - 1 : ℤ) : ℚ) = (((2 : ℤ) ^ p : ℤ) : ℚ) - 1 from by push_cast; ring,
        cast_two_pow_eq']
    rw [hcast, hPP]
    ring
  rw [hop]
  have hodd : ((2 : ℤ) ^ p - 1) % 2 = 1 := by
    have hev : (2 : ℤ) ^ p % 2 = 0 := by
      rw [show p = (p - 1) + 1 from by omega, pow_succ]
      omega
    omega
  have htie := rne_tie ((2 : ℤ) ^ p - 1)
  rw [if_neg (by omega)] at htie
  rw [htie]
  have hcast2 : (((2 : ℤ) ^ p - 1 + 1 : ℤ) : ℚ) = pow2 (p : ℤ) := by
    rw [show ((2 : ℤ) ^ p - 1 + 1 : ℤ) = (2 : ℤ) ^ p from by ring, cast_two_pow_eq']
  rw [hcast2, ← pow2_add, ← pow2_add]
  congr 1
  ring

/-- A representable `x` absorbs an increment of a quarter of its grid step:
`rnd p (x + 2 ^ (qexp x - p - 1)) = x`. -/
theorem rnd_add_small (p : ℕ) (hp : 1 ≤ p) (x : ℚ) (hx : x ≠ 0) (hfix : rnd p x = x) :
    rnd p (x + pow2 (qexp x - (p : ℤ) - 1)) = x := by
  obtain ⟨M, hxeq, hMl, hMh⟩ := rnd_repr p hp x hx hfix
  set e := qexp x with he
  set s : ℤ := e - (p : ℤ) + 1 with hs
  have hu : pow2 (e - (p : ℤ) - 1) = pow2 s * (1/4) := by
    rw [hs, show e - (p : ℤ) - 1 = (e - (p : ℤ) + 1) + (-2) from by ring, pow2_add]
    congr 1
    rw [pow2]
    norm_num
  have hsum : x + pow2 (e - (p : ℤ) - 1) = ((M : ℚ) + 1/4) * pow2 s := by
    rw [hxeq, hu]
    ring
  have hM0 : M ≠ 0 := by
    intro h
    rw [h] at hMl
    simp at hMl
    have := pow_pos (show (0:ℤ) < 2 by norm_num) (p - 1)
    omega
  rcases lt_or_gt_of_ne hM0 with hMneg | hMpos
  · -- x < 0 : write the sum as the negation of a positive value
    set A : ℤ := -M with hA
    have hAl : (2 : ℤ) ^ (p - 1) ≤ A := by
      rw [abs_of_neg hMneg] at hMl
      omega
    have hAh : A < 2 ^ p := by
      rw [abs_of_neg hMneg] at hMh
      omega
    have hneg : x + pow2 (e - (p : ℤ) - 1) = -(((A : ℚ) - 1/4) * pow2 s) := by
      rw [hsum, hA]
      push_cast
      ring
    rw [hneg, rnd_neg]
    rcases eq_or_lt_of_le hAl with hAeq | hAgt
    · -- bottom of the binade: the tie rounds up, back to x
      have hAcast : (A : ℚ) = pow2 ((p : ℤ) - 1) := by
        rw [← hAeq, cast_two_pow_eq p hp]
      rw [show ((A : ℚ) - 1/4) * pow2 s = (pow2 ((p : ℤ) - 1) - 1/4) * pow2 s from by
        rw [hAcast], rnd_bottom_sub_quarter p hp s, hxeq]
      have hMA : (M : ℚ) = -((A : ℚ)) := by
        rw [hA]
        push_cast
        ring
      rw [hMA, hAcast]
      ring
    · rw [rnd_int_sub_quarter p hp A s (by omega) hAh, hxeq, hA]
      push_cast
      ring
  · have hMl' : (2 : ℤ) ^ (p - 1) ≤ M := by
      rw [abs_of_pos hMpos] at hMl
      exact hMl
    have hMh' : M < 2 ^ p := by
      rw [abs_of_pos hMpos] at hMh
      exact hMh
    rw [hsum, rnd_int_add_quarter p hp M s hMl' hMh', hxeq]

/-- Adding `next_power x = 2 ^ (qexp x + 1)` to `x` always changes it, even
after rounding to `p` bits. -/
theorem rnd_add_next_ne (p : ℕ) (hp : 1 ≤ p) (x : ℚ) (hx : x ≠ 0) :
    rnd p (x + pow2 (qexp x + 1)) ≠ x := by
  obtain ⟨h1, h2⟩ := qexp_char x hx
  rcases lt_or_gt_of_ne hx with hneg | hpos
  · -- x < 0 : the sum is positive, so its rounding is positive
    have hsumpos : 0 < x + pow2 (qexp x + 1) := by
      rw [abs_of_neg hneg] at h2
      linarith
    have := rnd_pos p hp _ hsumpos
    intro hc
    rw [hc] at this
    linarith
  · -- x > 0 : the rounding is at least 2 ^ (qexp x + 1) > x
    have hsum_ge : pow2 (qexp x + 1) ≤ x + pow2 (qexp x + 1) := by linarith
    have hsumpos : 0 < x + pow2 (qexp x + 1) :=
      lt_of_lt_of_le (pow2_pos _) hsum_ge
    have hqe : qexp x + 1 ≤ qexp (x + pow2 (qexp x + 1)) :=
      qexp_ge_of_le _ hsumpos _ hsum_ge
    have hlb := rnd_lower_bound p hp _ hsumpos
    have : pow2 (qexp x + 1) ≤ rnd p (x + pow2 (qexp x + 1)) :=
      le_trans (pow2_le_pow2 hqe) hlb
    intro hc
    rw [hc] at this
    rw [abs_of_pos hpos] at h2
    linarith

theorem fpContinue_false_iff {α β : Type} [DecidableEq α] (func : α → β)
    (lim : α → β) (xstop : Option α) (compare : β → β → Bool) (ms n : ℕ) (x : α) :
    fpContinue func lim xstop compare ms n x = false ↔
      (xstop = some x ∨ n = ms ∨ compare (func x) (lim x) = true) := by
  unfold fpContinue
  cases xstop with
  | none =>
    cases h : compare (func x) (lim x) <;> by_cases hn : n = ms <;>
      simp [h, hn]
  | some s =>
    cases h : compare (func x) (lim x) <;> by_cases hn : n = ms <;>
      by_cases hx : x = s <;> simp [h, hn, hx, eq_comm]

theorem fpContinue_true_iff {α β : Type} [DecidableEq α] (func : α → β)
    (lim : α → β) (xstop : Option α) (compare : β → β → Bool) (ms n : ℕ) (x : α) :
    fpContinue func lim xstop compare ms n x = true ↔
      (¬(xstop = some x) ∧ n ≠ ms ∧ compare (func x) (lim x) = false) := by
  unfold fpContinue
  cases xstop with
  | none =>
    cases h : compare (func x) (lim x) <;> by_cases hn : n = ms <;>
      simp [h, hn]
  | some s =>
    cases h : compare (func x) (lim x) <;> by_cases hn : n = ms <;>
      by_cases hx : x = s <;> simp [h, hn, hx, eq_comm]

theorem findFpGo_spec {α β : Type} [DecidableEq α] (func : α → β) (lim : α → β)
    (xstop : Option α) (xstep : α → α) (compare : β → β → Bool) (ms : ℕ)
    (xstart : α) :
    ∀ fuel nsteps r, nsteps + fuel = ms →
      (∀ m, m < nsteps → ¬ fpStop func lim xstop xstep compare ms xstart m) →
      findFpGo func lim xstop xstep compare ms nsteps fuel (xstep^[nsteps] xstart) = r →
      r.2 = xstep^[r.1] xstart ∧
      fpStop func lim xstop xstep compare ms xstart r.1 ∧
      (∀ m, m < r.1 → ¬ fpStop func lim xstop xstep compare ms xstart m) := by
  intro fuel
  induction fuel with
  | zero =>
    intro nsteps r hms hmin hrun
    have : r = (nsteps, xstep^[nsteps] xstart) := by
      rw [← hrun]
      rfl
    subst this
    refine ⟨rfl, ?_, hmin⟩
    right; left
    omega
  | succ fuel ih =>
    intro nsteps r hms hmin hrun
    rw [findFpGo] at hrun
    by_cases hcond : fpContinue func lim xstop compare ms nsteps (xstep^[nsteps] xstart) = true
    · rw [if_pos hcond] at hrun
      obtain ⟨ha, hb, hc⟩ := (fpContinue_true_iff func lim xstop compare ms nsteps _).mp hcond
      have hnext : xstep (xstep^[nsteps] xstart) = xstep^[nsteps + 1] xstart :=
        (Function.iterate_succ_apply' xstep nsteps xstart).symm
      rw [hnext] at hrun
      apply ih (nsteps + 1) r (by omega) _ hrun
      intro m hm
      rcases Nat.lt_succ_iff_lt_or_eq.mp hm with hlt | heq
      · exact hmin m hlt
      · subst heq
        rintro (h | h | h)
        · exact ha h
        · exact hb h
        · rw [hc] at h
          exact Bool.false_ne_true h
    · rw [if_neg hcond] at hrun
      have hfalse : fpContinue func lim xstop compare ms nsteps (xstep^[nsteps] xstart) = false :=
        Bool.eq_false_iff.mpr hcond
      have hstop := (fpContinue_false_iff func lim xstop compare ms nsteps _).mp hfalse
      have : r = (nsteps, xstep^[nsteps] xstart) := by rw [← hrun]
      subst this
      exact ⟨rfl, hstop, hmin⟩

/-- `find_fp` computes the least stopped iterate. -/
theorem find_fp_spec {α β : Type} [DecidableEq α] (func : α → β) (limit : Limit α β)
    (xstart : α) (xstop : Option α) (xstep : α → α) (compare : β → β → Bool)
    (ms : ℕ) :
    (find_fp func limit xstart xstop xstep compare ms).2 =
      xstep^[(find_fp func limit xstart xstop xstep compare ms).1] xstart ∧
    fpStop func limit.eval xstop xstep compare ms xstart
      (find_fp func limit xstart xstop xstep compare ms).1 ∧
    (∀ m, m < (find_fp func limit xstart xstop xstep compare ms).1 →
      ¬ fpStop func limit.eval xstop xstep compare ms xstart m) :=
  findFpGo_spec func limit.eval xstop xstep compare ms xstart ms 0
    (find_fp func limit xstart xstop xstep compare ms) (by omega)
    (by intro m hm; omega) (by rw [Function.iterate_zero_apply]; rfl)

theorem find_fp_le_max_steps {α β : Type} [DecidableEq α] (func : α → β)
    (limit : Limit α β) (xstart : α) (xstop : Option α) (xstep : α → α)
    (compare : β → β → Bool) (ms : ℕ) :
    (find_fp func limit xstart xstop xstep compare ms).1 ≤ ms := by
  obtain ⟨_, _, hmin⟩ := find_fp_spec func limit xstart xstop xstep compare ms
  by_contra hc
  exact hmin ms (by omega) (Or.inr (Or.inl rfl))

/-! ## Characterization of the `ulp` scan -/

theorem ulpGo_of_stop (p : ℕ) (x u : ℚ) (fuel : ℕ)
    (h : rnd p (x + u) = x ∨ u = 0) : ulpGo p x u fuel = u := by
  cases fuel with
  | zero => rfl
  | succ fuel =>
    rw [ulpGo]
    rw [if_neg]
    rintro ⟨h1, h2⟩
    rcases h with h | h
    · exact h1 h
    · exact h2 h

theorem ulpGo_pow (p : ℕ) (hp : 1 ≤ p) (x : ℚ) :
    ∀ fuel (m : ℤ), ∃ k : ℤ, ulpGo p x (pow2 m) fuel = pow2 k := by
  intro fuel
  induction fuel with
  | zero => intro m; exact ⟨m, rfl⟩
  | succ fuel ih =>
    intro m
    rw [ulpGo]
    by_cases hcond : rnd p (x + pow2 m) ≠ x ∧ pow2 m ≠ 0
    · rw [if_pos hcond]
      rw [pow2_mul_half, rnd_pow2 p hp]
      exact ih (m - 1)
    · rw [if_neg hcond]
      exact ⟨m, rfl⟩

theorem ulpGo_ok (p : ℕ) (hp : 1 ≤ p) (x : ℚ) :
    ∀ fuel (m : ℤ),
      rnd p (x + pow2 m) ≠ x →
      (∃ j : ℕ, 1 ≤ j ∧ j ≤ fuel ∧ rnd p (x + pow2 (m - j)) = x) →
      rnd p (x + ulpGo p x (pow2 m) fuel) = x ∧
      rnd p (x + 2 * ulpGo p x (pow2 m) fuel) ≠ x := by
  intro fuel
  induction fuel with
  | zero =>
    intro m _ hex
    obtain ⟨j, hj1, hj2, _⟩ := hex
    omega
  | succ fuel ih =>
    intro m hne hex
    rw [ulpGo, if_pos ⟨hne, pow2_ne_zero m⟩, pow2_mul_half, rnd_pow2 p hp]
    by_cases hnext : rnd p (x + pow2 (m - 1)) = x
    · rw [ulpGo_of_stop p x (pow2 (m - 1)) fuel (Or.inl hnext)]
      constructor
      · exact hnext
      · rw [pow2_double, show m - 1 + 1 = m from by ring]
        exact hne
    · obtain ⟨j, hj1, hj2, hj3⟩ := hex
      have hj1' : j ≠ 1 := by
        intro h
        subst h
        exact hnext (by exact_mod_cast hj3)
      have hcast : m - 1 - ((j - 1 : ℕ) : ℤ) = m - (j : ℤ) := by
        have : ((j - 1 : ℕ) : ℤ) = (j : ℤ) - 1 := by omega
        rw [this]
        ring
      apply ih (m - 1) hnext
      exact ⟨j - 1, by omega, by omega, by rw [hcast]; exact hj3⟩

theorem next_power_of_ne (x : ℚ) (hx : x ≠ 0) : next_power x = pow2 (qexp x + 1) := by
  rw [next_power, if_neg hx]

theorem ulp_pos_core (p B : ℕ) (hp : 1 ≤ p) (x : ℚ) (hx : x ≠ 0) :
    0 < ulpGo p x (next_power x) B * 2 := by
  rw [next_power_of_ne x hx]
  obtain ⟨k, hk⟩ := ulpGo_pow p hp x B (qexp x + 1)
  rw [hk]
  have := pow2_pos k
  linarith

/-- The heart of C6: on a `p`-representable nonzero `x`, provided the
halving bound is at least `p + 2`, the scan stops by the `(x + ulp) == x`
condition, so the returned value `r * 2` satisfies
`rnd p (x + r * 2) ≠ x` and `rnd p (x + r) = x`. -/
theorem ulp_spec_core (p B : ℕ) (hp : 1 ≤ p) (hB : p + 2 ≤ B) (x : ℚ)
    (hx : x ≠ 0) (hfix : rnd p x = x) :
    0 < ulpGo p x (next_power x) B * 2 ∧
    rnd p (x + ulpGo p x (next_power x) B * 2) ≠ x ∧
    rnd p (x + (ulpGo p x (next_power x) B * 2) / 2) = x := by
  refine ⟨ulp_pos_core p B hp x hx, ?_, ?_⟩ <;> {
    rw [next_power_of_ne x hx]
    have hentry := rnd_add_next_ne p hp x hx
    have hsm := rnd_add_small p hp x hx hfix
    have hcast : qexp x + 1 - ((p + 2 : ℕ) : ℤ) = qexp x - (p : ℤ) - 1 := by
      push_cast
      ring
    have hex : ∃ j : ℕ, 1 ≤ j ∧ j ≤ B ∧ rnd p (x + pow2 (qexp x + 1 - j)) = x :=
      ⟨p + 2, by omega, hB, by rw [hcast]; exact hsm⟩
    obtain ⟨hstop, hne⟩ := ulpGo_ok p hp x B (qexp x + 1) hentry hex
    first
    | · rw [show ulpGo p x (pow2 (qexp x + 1)) B * 2 =
          2 * ulpGo p x (pow2 (qexp x + 1)) B from by ring]
        exact hne
    | · rw [show ulpGo p x (pow2 (qexp x + 1)) B * 2 / 2 =
          ulpGo p x (pow2 (qexp x + 1)) B from by ring]
        exact hstop
  }

theorem ulp_zero_core (p B : ℕ) : ulpGo p 0 (next_power 0) B * 2 = 0 := by
  rw [show next_power 0 = 0 from by rw [next_power]; simp]
  rw [ulpGo_of_stop p 0 0 B (Or.inr rfl)]
  ring

/-! ## The claims -/

/-- C1: `find_fp` returns the pair `(n, x)` where `x` is `xstep` applied to
`xstart` exactly `n` times, `n` is the least count at which `x` equals the
sentinel `xstop`, or `n` equals `max_steps`, or `compare(func(x), limit(x))`
is true, and `compare` was false at every earlier iterate (the stop
condition `fpStop` held at no earlier count at all). It never raises on
non-convergence — `fpStop` names the three silent exits — and a
non-callable limit behaves as the constant function returning its value. -/
theorem C1_find_fp_least_stopped_iterate {α β : Type} [DecidableEq α]
    (func : α → β) (limit : Limit α β) (xstart : α) (xstop : Option α)
    (xstep : α → α) (compare : β → β → Bool) (max_steps : ℕ) :
    (find_fp func limit xstart xstop xstep compare max_steps).2 =
      xstep^[(find_fp func limit xstart xstop xstep compare max_steps).1] xstart ∧
    fpStop func limit.eval xstop xstep compare max_steps xstart
      (find_fp func limit xstart xstop xstep compare max_steps).1 ∧
    (∀ m, m < (find_fp func limit xstart xstop xstep compare max_steps).1 →
      ¬ fpStop func limit.eval xstop xstep compare max_steps xstart m) ∧
    (∀ c : β, find_fp func (Limit.val c) xstart xstop xstep compare max_steps =
      find_fp func (Limit.fn (fun _ => c)) xstart xstop xstep compare max_steps) := by
  obtain ⟨h1, h2, h3⟩ := find_fp_spec func limit xstart xstop xstep compare max_steps
  refine ⟨h1, h2, h3, ?_⟩
  intro c
  unfold find_fp
  have : Limit.eval (Limit.val c) = Limit.eval (α := α) (Limit.fn (fun _ => c)) :=
    funext fun _ => rfl
  rw [this]

/-- C2: the source of `find_limit` (`src/limits.py`) builds the
`nulp`-selected `compare` and then passes `eq` to `find_fp` (and
`find_limit_reverse` passes `ne`), so the ULP tolerance is never used. At
`prec = 24`, `nulp = 1`, `func ≡ 1`, `limit = 1 - 2⁻²⁴` the claimed
comparison `|func(x) - limit(x)| ≤ ulp(func(x))` is already true at the
start — a search honouring `nulp` would stop at step 0 — yet the code runs
all 149 coarse steps down to the sentinel `2⁻¹⁴⁹`. -/
theorem C2_find_limit_passes_eq_not_compare :
    ulp_le_compare ieee_float 24 1 (1 - pow2 (-24)) = true ∧
    find_limit 53 (fun _ => 1) (Limit.val (1 - pow2 (-24))) none none 1 24 =
      (.ok (149, pow2 (-149)), 53) := by
  constructor
  · with_unfolding_all decide
  · with_unfolding_all rfl

/-- C4: the coarse search terminates with a step count bounded by
`max_steps`; `find_limit` and the coarse call of `find_limit_reverse` pass
`abs(min_exp(denorm=True))` as that bound; and on a pathological pair
whose predicate never fires (and whose sentinel is never reached early)
the loop stops exactly at the bound. -/
theorem C4_coarse_step_count_bounded :
    (∀ (α β : Type) [DecidableEq α] (func : α → β) (limit : Limit α β)
      (xstart : α) (xstop : Option α) (xstep : α → α) (compare : β → β → Bool)
      (ms : ℕ), (find_fp func limit xstart xstop xstep compare ms).1 ≤ ms) ∧
    (∀ (ambient : ℕ) (func : ℚ → ℚ) (limit : Limit ℚ ℚ) (xstart xstop : Option ℚ)
      (nulp prec : ℕ) (fmt : IEEEFormat) (r : ℕ × ℚ),
      ieee_format ambient prec = some fmt →
      (find_limit ambient func limit xstart xstop nulp prec).1 = .ok r →
      r.1 ≤ (fmt.min_exp true).natAbs) ∧
    (∀ (wp : ℕ) (fmt : IEEEFormat) (func : ℚ → ℚ) (limit : Limit ℚ ℚ) (xs xst : ℚ),
      (find_limit_reverse_coarse wp fmt func limit xs xst).1 ≤ (fmt.min_exp true).natAbs) ∧
    (∀ (α β : Type) [DecidableEq α] (func : α → β) (limit : Limit α β)
      (xstart : α) (xstop : Option α) (xstep : α → α) (compare : β → β → Bool)
      (ms : ℕ),
      (∀ a b, compare a b = false) →
      (∀ k, k < ms → xstop ≠ some (xstep^[k] xstart)) →
      (find_fp func limit xstart xstop xstep compare ms).1 = ms) := by
  refine ⟨?_, ?_, ?_, ?_⟩
  · intro α β _ func limit xstart xstop xstep compare ms
    exact find_fp_le_max_steps func limit xstart xstop xstep compare ms
  · intro ambient func limit xstart xstop nulp prec fmt r hfmt hok
    unfold find_limit at hok
    rw [hfmt] at hok
    simp only [Except.ok.injEq] at hok
    rw [← hok]
    exact find_fp_le_max_steps _ _ _ _ _ _ _
  · intro wp fmt func limit xs xst
    exact find_fp_le_max_steps _ _ _ _ _ _ _
  · intro α β _ func limit xstart xstop xstep compare ms hcmp hsent
    obtain ⟨_, hstop, _⟩ := find_fp_spec func limit xstart xstop xstep compare ms
    have hle := find_fp_le_max_steps func limit xstart xstop xstep compare ms
    set n := (find_fp func limit xstart xstop xstep compare ms).1 with hn
    rcases hstop with h | h | h
    · rcases Nat.lt_or_ge n ms with hlt | hge
      · exact absurd h (hsent n hlt)
      · omega
    · exact h
    · rw [hcmp] at h
      exact absurd h Bool.false_ne_true

/-- C10: the ambient working precision after a call to `find_limit` or
`find_limit_reverse` (either module) equals its value before the call —
the `workprec` context restores `mp.prec` on every exit path, including
the `KeyError` raised before the block is entered and the `NameError`
raised inside it. -/
theorem C10_ambient_precision_restored (ambient : ℕ) (func : ℚ → ℚ)
    (limit : Limit ℚ ℚ) (xstart xstop : Option ℚ) (nulp prec fuel : ℕ) :
    (find_limit ambient func limit xstart xstop nulp prec).2 = ambient ∧
    (find_limit_reverse ambient func limit xstart xstop nulp prec).2 = ambient ∧
    (fp.find_limit_fast_exec ambient func limit xstart xstop nulp prec).2 = ambient ∧
    (fp.find_limit_reverse_fast_exec ambient func limit xstart xstop nulp prec).2 = ambient ∧
    (fp.find_limit_exec ambient func limit xstart xstop nulp prec fuel).2 = ambient ∧
    (fp.find_limit_reverse_exec ambient func limit xstart xstop nulp prec fuel).2 = ambient := by
  refine ⟨?_, ?_, ?_, ?_, ?_, ?_⟩ <;> {
    first
    | (unfold find_limit; cases ieee_format ambient prec <;> rfl)
    | (unfold find_limit_reverse; cases ieee_format ambient prec <;> rfl)
    | (unfold fp.find_limit_fast_exec
       cases ieee_format ambient prec <;> simp [resolveGlobal, fp_limits_globals])
    | (unfold fp.find_limit_reverse_fast_exec
       cases ieee_format ambient prec <;> simp [resolveGlobal, fp_limits_globals])
    | (unfold fp.find_limit_exec
       cases ieee_format ambient prec <;> simp [resolveGlobal, fp_limits_globals])
    | (unfold fp.find_limit_reverse_exec
       cases ieee_format ambient prec <;> simp [resolveGlobal, fp_limits_globals])
  }

/-- C5 (amended): the module `src/src/fp/limits.py` binds `find_fp_fast`
but never `find_fp`, so every call to one of its four search entry points
whose precision lookup succeeds fails with `NameError("find_fp")` before
producing a result; a call with an unsupported precision fails earlier,
in `ieee_format`, with `KeyError` instead (see the counterexample). -/
theorem C5_entry_points_raise_nameerror (ambient prec : ℕ) (fmt : IEEEFormat)
    (hfmt : ieee_format ambient prec = some fmt) (func : ℚ → ℚ)
    (limit : Limit ℚ ℚ) (xstart xstop : Option ℚ) (nulp fuel : ℕ) :
    "find_fp" ∉ fp_limits_globals ∧
    "find_fp_fast" ∈ fp_limits_globals ∧
    fp.find_limit_fast_exec ambient func limit xstart xstop nulp prec =
      (.error (.nameError "find_fp"), ambient) ∧
    fp.find_limit_reverse_fast_exec ambient func limit xstart xstop nulp prec =
      (.error (.nameError "find_fp"), ambient) ∧
    fp.find_limit_exec ambient func limit xstart xstop nulp prec fuel =
      (.error (.nameError "find_fp"), ambient) ∧
    fp.find_limit_reverse_exec ambient func limit xstart xstop nulp prec fuel =
      (.error (.nameError "find_fp"), ambient) := by
  refine ⟨by decide, by decide, ?_, ?_, ?_, ?_⟩ <;> {
    first
    | (unfold fp.find_limit_fast_exec; rw [hfmt]; rfl)
    | (unfold fp.find_limit_reverse_fast_exec; rw [hfmt]; rfl)
    | (unfold fp.find_limit_exec; rw [hfmt]; rfl)
    | (unfold fp.find_limit_reverse_exec; rw [hfmt]; rfl)
  }

/-- C5 witness: at the ambient default precision 53 (the double format)
the four entry points all fail with `NameError("find_fp")`. -/
theorem C5_entry_points_raise_nameerror_witness :
    "find_fp" ∉ fp_limits_globals ∧
    "find_fp_fast" ∈ fp_limits_globals ∧
    fp.find_limit_fast_exec 53 (fun x => x) (Limit.val 1) none none 0 0 =
      (.error (.nameError "find_fp"), 53) ∧
    fp.find_limit_reverse_fast_exec 53 (fun x => x) (Limit.val 1) none none 0 0 =
      (.error (.nameError "find_fp"), 53) ∧
    fp.find_limit_exec 53 (fun x => x) (Limit.val 1) none none 0 0 100 =
      (.error (.nameError "find_fp"), 53) ∧
    fp.find_limit_reverse_exec 53 (fun x => x) (Limit.val 1) none none 0 0 100 =
      (.error (.nameError "find_fp"), 53) :=
  C5_entry_points_raise_nameerror 53 0 ieee_double (by with_unfolding_all rfl)
    (fun x => x) (Limit.val 1) none none 0 100

/-- C5 counterexample to the claim as frozen ("for every input ... a
name-resolution error"): with the unsupported precision 10 the call fails
with `KeyError(10)`, which is not a `NameError`, before the `find_fp`
reference is ever evaluated. -/
theorem C5_counterexample_keyerror_input :
    fp.find_limit_fast_exec 53 (fun x => x) (Limit.val 1) none none 0 10 =
      (.error (.keyError 10), 53) ∧
    PyErr.isNameError (.keyError 10) = false := by
  constructor
  · with_unfolding_all rfl
  · rfl

/-- C7 (amended): `ulp(x)` is positive for every nonzero finite `x`, but
`ulp(0) = 0`: `next_power(0)` is `0` (via mpmath's `log(0) = -inf`), the
scan exits at once on its `ulp != zero` test, and `0 * 2 = 0`. -/
theorem C7_ulp_positive_on_nonzero (fmt : IEEEFormat)
    (hmem : fmt ∈ [ieee_float, ieee_double, intel_extended, ieee_quad]) :
    (∀ x : ℚ, x ≠ 0 → 0 < fmt.ulp x) ∧ fmt.ulp 0 = 0 := by
  constructor
  · intro x hx
    have hp : 1 ≤ fmt.prec := by
      fin_cases hmem <;> decide
    exact ulp_pos_core fmt.prec (fmt.min_exp true).natAbs hp x hx
  · exact ulp_zero_core fmt.prec (fmt.min_exp true).natAbs

/-- C7 witness: the double format has `ulp(1) = 2⁻⁵² > 0` and `ulp(0) = 0`. -/
theorem C7_ulp_positive_on_nonzero_witness :
    (∀ x : ℚ, x ≠ 0 → 0 < ieee_double.ulp x) ∧ ieee_double.ulp 0 = 0 :=
  C7_ulp_positive_on_nonzero ieee_double (by simp)

/-- C7 counterexample to the claim as frozen (`ulp(0) > 0`): `ulp(0)` is
exactly `0` in the double format. -/
theorem C7_counterexample_ulp_zero :
    ieee_double.ulp 0 = 0 ∧ ¬ (0 < ieee_double.ulp 0) := by
  constructor
  · with_unfolding_all rfl
  · rw [show ieee_double.ulp 0 = 0 from by with_unfolding_all rfl]
    norm_num

/-- C6 (amended): for every registered format and every nonzero `x` that
is representable at the format's precision (`rnd fmt.prec x = x`),
`ulp(x)` is positive, `x + ulp(x)` differs from `x` when the addition is
rounded at the format's own precision, and `x + ulp(x)/2` equals `x`
after that rounding — `ulp(x)` is the minimal increment the scan can
certify. The restriction to representable `x` is forced by the
counterexample: for an `x` carrying more significand bits than the
format, every rounded sum differs from `x`, the scan exhausts its bound,
and `x + ulp(x)/2` no longer rounds back to `x`. -/
theorem C6_ulp_minimal_increment (fmt : IEEEFormat)
    (hmem : fmt ∈ [ieee_float, ieee_double, intel_extended, ieee_quad])
    (x : ℚ) (hx : x ≠ 0) (hfix : rnd fmt.prec x = x) :
    0 < fmt.ulp x ∧
    rnd fmt.prec (x + fmt.ulp x) ≠ x ∧
    rnd fmt.prec (x + fmt.ulp x / 2) = x := by
  have hp : 1 ≤ fmt.prec := by fin_cases hmem <;> decide
  have hB : fmt.prec + 2 ≤ (fmt.min_exp true).natAbs := by
    fin_cases hmem <;> decide
  exact ulp_spec_core fmt.prec (fmt.min_exp true).natAbs hp hB x hx hfix

/-- C6 witness: in the double format, `x = 3` is representable, and
`ulp(3)` is positive, changes `3` when added, and half of it does not. -/
theorem C6_ulp_minimal_increment_witness :
    0 < ieee_double.ulp 3 ∧
    rnd ieee_double.prec (3 + ieee_double.ulp 3) ≠ 3 ∧
    rnd ieee_double.prec (3 + ieee_double.ulp 3 / 2) = 3 :=
  C6_ulp_minimal_increment ieee_double (by simp) 3 (by norm_num)
    (by with_unfolding_all rfl)

/-- C6 counterexample to the claim as frozen ("every nonzero finite x"):
`x = 1 + 2⁻³⁰` is finite and nonzero but carries 31 significand bits, more
than the single format's 24. Its `ulp` scan runs to the 149-step bound,
returns `2⁻¹⁴⁷`, and `x + ulp(x)/2` rounds to a 24-bit value, never back
to `x` — the third conjunct of the claim fails. -/
theorem C6_counterexample_unrepresentable_input :
    ¬ (0 < ieee_float.ulp (1 + pow2 (-30)) ∧
      rnd ieee_float.prec ((1 + pow2 (-30)) + ieee_float.ulp (1 + pow2 (-30))) ≠ (1 + pow2 (-30)) ∧
      rnd ieee_float.prec ((1 + pow2 (-30)) + ieee_float.ulp (1 + pow2 (-30)) / 2) = (1 + pow2 (-30))) := by
  rintro ⟨-, -, hc⟩
  rw [show ieee_float.ulp (1 + pow2 (-30)) = pow2 (-147) from by
    with_unfolding_all rfl] at hc
  revert hc
  with_unfolding_all decide

/-- C8: for every format in the registry, `bias = 2^(exponent_bits-1) - 1`,
`max_exp()` returns the bias, `min_exp(denorm=False)` returns `-(bias-1)`,
`min_exp(denorm=True)` returns `-(bias-1) - (prec-1)` (hence is at most
`min_exp(denorm=False)`), and `min_value`/`max_value` return two raised to
the corresponding minimum and maximum exponent. -/
theorem C8_format_derived_quantities (fmt : IEEEFormat)
    (hmem : fmt ∈ [ieee_float, ieee_double, intel_extended, ieee_quad]) :
    fmt.bias = 2 ^ (fmt.exp - 1) - 1 ∧
    fmt.max_exp = fmt.bias ∧
    fmt.min_exp false = -(fmt.bias - 1) ∧
    fmt.min_exp true = -(fmt.bias - 1) - ((fmt.prec : ℤ) - 1) ∧
    fmt.min_exp true ≤ fmt.min_exp false ∧
    (∀ d : Bool, fmt.min_value d = pow2 (fmt.min_exp d)) ∧
    fmt.max_value = pow2 fmt.max_exp := by
  refine ⟨rfl, rfl, rfl, rfl, ?_, fun d => rfl, rfl⟩
  fin_cases hmem <;> decide

/-- C8 witness: the double format, concretely: bias `1023`,
`min_exp(True) = -1074 ≤ min_exp(False) = -1022`, `max_exp = 1023`. -/
theorem C8_format_derived_quantities_witness :
    ieee_double.bias = 2 ^ (ieee_double.exp - 1) - 1 ∧
    ieee_double.max_exp = ieee_double.bias ∧
    ieee_double.min_exp false = -(ieee_double.bias - 1) ∧
    ieee_double.min_exp true = -(ieee_double.bias - 1) - ((ieee_double.prec : ℤ) - 1) ∧
    ieee_double.min_exp true ≤ ieee_double.min_exp false ∧
    (∀ d : Bool, ieee_double.min_value d = pow2 (ieee_double.min_exp d)) ∧
    ieee_double.max_value = pow2 ieee_double.max_exp :=
  C8_format_derived_quantities ieee_double (by simp)

/-- C9: `ieee_format` with an explicit nonzero precision returns the
registered format of that significand precision exactly for
24, 53, 63 and 113 bits and raises `KeyError` (modelled as `none`) for
any other precision, whatever the ambient precision is; and `workfloat`
raises `KeyError` exactly for arguments matching no registered format's
bit width or byte width, that is, outside `{4, 8, 10, 16, 32, 64, 80, 128}`. -/
theorem C9_registry_lookup_errors :
    (∀ (ambient p : ℕ), p ≠ 0 →
      ((∃ fmt, ieee_format ambient p = some fmt ∧ fmt.prec = p) ↔
        (p = 24 ∨ p = 53 ∨ p = 63 ∨ p = 113)) ∧
      (¬ (p = 24 ∨ p = 53 ∨ p = 63 ∨ p = 113) → ieee_format ambient p = none)) ∧
    (∀ b : ℤ, workfloat_raises b = true ↔
      ¬ (b = 4 ∨ b = 8 ∨ b = 10 ∨ b = 16 ∨ b = 32 ∨ b = 64 ∨ b = 80 ∨ b = 128)) := by
  constructor
  · intro ambient p hp
    have heff : effective_prec ambient p = p := by
      unfold effective_prec
      rw [if_neg hp]
    have hnone : ¬ (p = 24 ∨ p = 53 ∨ p = 63 ∨ p = 113) →
        ieee_format ambient p = none := by
      intro hout
      have b24 : ((24 : ℕ) == p) = false := beq_eq_false_iff_ne.mpr (by omega)
      have b53 : ((53 : ℕ) == p) = false := beq_eq_false_iff_ne.mpr (by omega)
      have b63 : ((63 : ℕ) == p) = false := beq_eq_false_iff_ne.mpr (by omega)
      have b113 : ((113 : ℕ) == p) = false := beq_eq_false_iff_ne.mpr (by omega)
      unfold ieee_format formats_lookup ieee_formats
      rw [heff]
      simp [List.find?, ieee_float, ieee_double, intel_extended, ieee_quad,
        b24, b53, b63, b113]
    refine ⟨⟨?_, ?_⟩, hnone⟩
    · rintro ⟨fmt, hlook, hprec⟩
      by_contra hout
      rw [hnone hout] at hlook
      exact Option.noConfusion hlook
    · rintro (h | h | h | h) <;> {
        subst h
        first
        | exact ⟨ieee_float, by rw [ieee_format, heff]; rfl, rfl⟩
        | exact ⟨ieee_double, by rw [ieee_format, heff]; rfl, rfl⟩
        | exact ⟨intel_extended, by rw [ieee_format, heff]; rfl, rfl⟩
        | exact ⟨ieee_quad, by rw [ieee_format, heff]; rfl, rfl⟩
      }
  · intro b
    unfold workfloat_raises workfloat_found ieee_formats
    simp [ieee_float, ieee_double, intel_extended, ieee_quad]
    tauto

/-- C9 witness: precision 53 resolves to the double format; precision 7
makes the lookup return `none` (the `KeyError`); width 7 makes `workfloat`
raise and width 10 (the extended format's byte width) does not. -/
theorem C9_registry_lookup_errors_witness :
    (∃ fmt, ieee_format 0 53 = some fmt ∧ fmt.prec = 53) ∧
    ieee_format 0 7 = none ∧
    workfloat_raises 7 = true ∧ ¬ (workfloat_raises 10 = true) := by
  refine ⟨?_, ?_, ?_, ?_⟩
  · exact (C9_registry_lookup_errors.1 0 53 (by norm_num)).1.mpr (by norm_num)
  · exact (C9_registry_lookup_errors.1 0 7 (by norm_num)).2 (by omega)
  · exact (C9_registry_lookup_errors.2 7).mpr (by omega)
  · intro hc
    have := (C9_registry_lookup_errors.2 10).mp hc
    omega

theorem effective_prec_idem (ambient prec : ℕ) :
    effective_prec (effective_prec ambient prec) prec = effective_prec ambient prec := by
  unfold effective_prec
  by_cases h : prec = 0 <;> simp [h]

theorem ieee_format_effective (ambient prec : ℕ) :
    ieee_format (effective_prec ambient prec) prec = ieee_format ambient prec := by
  unfold ieee_format effective_prec
  by_cases h : prec = 0 <;> simp [h]

/-- C3 (amended): the two-phase `fp.find_limit` (with the `find_fp` name
resolved to the module's own coarse loop, see C5) returns the triple
(bisected boundary value, coarse step count, bisection step count), where
the bisection loop starts its predicate evaluations at the *lower* edge
of the bracket — the coarse result — and only from the second iteration
on at the midpoint of the current `[lower, upper]` bracket, replacing the
lower edge when the predicate holds at the evaluation point and the upper
edge otherwise, stopping when the evaluation point stops changing or
lower equals upper, and returning the step count with the lower edge.
The first conjunct spells out the triple, the second the loop recurrence
(first argument `fuel + 1`) and its exit, and the third an observable
consequence of evaluating at the lower edge first: a bracket whose
predicate already fails at the lower edge collapses in a single step —
under the claim's midpoint-first reading it would bisect instead (see the
counterexample). -/
theorem C3_twophase_triple_and_bisect_recurrence :
    (∀ (ambient : ℕ) (func lim : ℚ → ℚ) (xstart xstop : Option ℚ)
      (nulp prec fuel : ℕ) (fmt : IEEEFormat),
      ieee_format ambient prec = some fmt →
      (let wp := effective_prec ambient prec
       let ccmp := if nulp ≠ 0 then ulp_le_compare fmt wp else operator_eq
       let bcmp := if nulp ≠ 0 then ulp_gt_compare fmt wp else operator_eq
       let r := find_fp func (Limit.fn lim) (xstart.getD 1)
         (some (xstop.getD (fmt.min_value true))) (half_step wp) ccmp
         (fmt.min_exp true).natAbs
       let b := fp.bisectGo wp func lim bcmp fuel r.2 none r.2 (rnd wp (r.2 * 2)) 0
       fp.find_limit ambient func lim xstart xstop nulp prec fuel =
         (.ok (b.2, r.1, b.1), ambient))) ∧
    (∀ (wp : ℕ) (func lim : ℚ → ℚ) (cmp : ℚ → ℚ → Bool) (fuel : ℕ)
      (x : ℚ) (lastx : Option ℚ) (lo hi : ℚ) (n : ℕ),
      (fp.bisectGo wp func lim cmp (fuel + 1) x lastx lo hi n =
        if lastx ≠ some x ∧ lo ≠ hi then
          (if cmp (func x) (lim x) then
            fp.bisectGo wp func lim cmp fuel (fp.midpoint_step wp x hi) (some x) x hi (n + 1)
          else
            fp.bisectGo wp func lim cmp fuel (fp.midpoint_step wp lo x) (some x) lo x (n + 1))
        else (n, lo)) ∧
      fp.bisectGo wp func lim cmp 0 x lastx lo hi n = (n, lo)) ∧
    (∀ (wp : ℕ) (func lim : ℚ → ℚ) (cmp : ℚ → ℚ → Bool) (f : ℕ) (lo hi : ℚ),
      cmp (func lo) (lim lo) = false → lo ≠ hi →
      fp.bisectGo wp func lim cmp (f + 2) lo none lo hi 0 = (1, lo)) := by
  refine ⟨?_, ?_, ?_⟩
  · intro ambient func lim xstart xstop nulp prec fuel fmt hfmt
    have hsame : ieee_format (effective_prec ambient prec) prec = some fmt := by
      rw [ieee_format_effective, hfmt]
    have hidem := effective_prec_idem ambient prec
    dsimp only
    unfold fp.find_limit fp.bisect_limit
    simp only [hfmt, hsame, hidem]
  · intro wp func lim cmp fuel x lastx lo hi n
    exact ⟨rfl, rfl⟩
  · intro wp func lim cmp f lo hi hcmp hne
    rw [fp.bisectGo, if_pos ⟨by simp, hne⟩, hcmp]
    simp only [Bool.false_eq_true, if_false]
    rw [fp.bisectGo]
    simp

/-- C3 counterexample to the claim as frozen: with the identity against
`x + 1` (predicate `eq` never true) on the bracket `[1, 2]` at single
precision, the source's `bisect_limit` evaluates the predicate at the
lower edge `1` first, moves the upper edge there, and stops after one
step with `(1, 1)`; a midpoint-first bisection as the claim describes it
(`fp.bisect_limit_claim`) needs 24 steps before its evaluation point
stabilises. -/
theorem C3_counterexample_first_eval_not_at_midpoint :
    fp.bisect_limit 53 (fun x => x) (fun x => x + 1) 1 (some 2) 0 24 100 =
      (.ok (1, 1), 53) ∧
    fp.bisect_limit_claim 53 (fun x => x) (fun x => x + 1) 1 (some 2) 0 24 100 =
      (.ok (24, 1), 53) ∧
    ((.ok (1, 1), 53) : Except PyErr (ℕ × ℚ) × ℕ) ≠ (.ok (24, 1), 53) := by
  refine ⟨?_, ?_, ?_⟩
  · with_unfolding_all rfl
  · with_unfolding_all rfl
  · intro h
    simp only [Prod.mk.injEq, Except.ok.injEq] at h
    exact absurd h.1.1 (by norm_num)
